import Mathlib

/-!
Verification of the forecast retrieval pipeline of the weather-api
repository against its natural-language specification.

The Python sources are shallowly embedded as Lean definitions:

* floats that carry coordinate or temperature values are modelled as
  rationals (`Rat`);
* `datetime` values are modelled as integer UTC timestamps in seconds,
  `date` values as integer ordinal day numbers, and `time`-of-day values
  as integer seconds after local midnight;
* Python strings are modelled as `List Char`;
* the external HTTP world (the yr.no response, the timezone database) is
  passed in explicitly as data / function arguments;
* mutation of Python objects is modelled by explicit state passing.  In
  particular, Python aliasing is preserved: when the service mutates a
  response object that is also referenced from the cache, the embedded
  state update writes the mutated value back into the cache slot.
-/

attribute [local semireducible] Rat.mul Rat.sub Rat.add

namespace WeatherApi

/-- `app/core/config.py`, class `Settings` (the environment-variable
defaults; the embedding fixes the default configuration). -/
structure Settings where
  CACHE_TTL_SECONDS : Int
  CACHE_MAX_SIZE : Nat
  TARGET_HOUR : Int
  TARGET_MINUTE : Int
deriving Repr, DecidableEq

/-- The default settings: `CACHE_TTL_SECONDS=3600`, `CACHE_MAX_SIZE=1000`,
`TARGET_HOUR=14`, `TARGET_MINUTE=0`. -/
def settings : Settings := ⟨3600, 1000, 14, 0⟩

/-- `app/api/models.py`, `class TemperatureUnit(str, Enum)`. -/
inductive TemperatureUnit where
  | celsius
  | fahrenheit
deriving Repr, DecidableEq

namespace TemperatureUnit

/-- `TemperatureUnit.convert_from_celsius`: identity for Celsius,
`temp_c * 9/5 + 32` for Fahrenheit. -/
def convert_from_celsius : TemperatureUnit → Rat → Rat
  | celsius, t => t
  | fahrenheit, t => t * 9 * (mkRat 1 5) + 32

end TemperatureUnit

/-- A local wall-clock instant, as produced by
`timezone_service.to_local_time`: the local calendar date (ordinal day
number) together with the wall-clock seconds after local midnight. -/
structure LocalDateTime where
  date : Int
  sod : Int
deriving Repr, DecidableEq

/-- `app/api/models.py`, `class Location`.  Coordinates are rationals;
the pydantic range validators are not re-modelled here because the core
never constructs out-of-range values. -/
structure Location where
  latitude : Rat
  longitude : Rat
  name : Option (List Char)
deriving Repr, DecidableEq

/-- `app/api/models.py`, `class TemperatureReading`: forecast date
(ordinal day), temperature, unit, local time of the reading (seconds
after midnight) and the original UTC source timestamp (seconds). -/
structure TemperatureReading where
  date : Int
  temperature : Rat
  unit : TemperatureUnit
  time : Int
  source_time : Int
deriving Repr, DecidableEq

/-- `app/api/models.py`, `class ForecastResponse` (the raw record, before
pydantic validators run; see `ForecastResponse.construct`). -/
structure ForecastResponse where
  location : Location
  forecasts : List TemperatureReading
  days_returned : Nat
  cached : Bool
  stale : Bool
  cached_at : Option Int
  generated_at : Int
deriving Repr, DecidableEq

/-- `ForecastResponse.sort_forecasts` (pydantic `field_validator`), and the
in-place `readings.sort(key=lambda r: r.date)` of
`WeatherService._process_timeseries`.  Python `sorted`/`sort` is a
*stable* sort on the `date` key; a stable sort's output is uniquely
determined by the input and the key, so any stable sort is an exact
model — the embedding uses insertion sort. -/
def sortByDate (v : List TemperatureReading) : List TemperatureReading :=
  v.insertionSort (fun a b => a.date ≤ b.date)

namespace ForecastResponse

/-- `ForecastResponse.validate_days_count` (pydantic `model_validator`):
`if self.forecasts: self.days_returned = len(self.forecasts)`.
An empty list is falsy in Python, so an empty `forecasts` leaves the
caller-supplied `days_returned` untouched. -/
def validate_days_count (r : ForecastResponse) : ForecastResponse :=
  if r.forecasts.isEmpty then r else
    { r with days_returned := r.forecasts.length }

/-- Constructing a `ForecastResponse(...)` in Python runs the pydantic
validators: `sort_forecasts` on the `forecasts` field, then
`validate_days_count` on the model.  Later plain attribute assignments on
an existing object do *not* re-run the validators (pydantic
`validate_assignment` is off), and are therefore modelled as plain record
updates elsewhere. -/
def construct (location : Location) (forecasts : List TemperatureReading)
    (days_returned : Nat) (cached : Bool) (stale : Bool)
    (cached_at : Option Int) (generated_at : Int) : ForecastResponse :=
  validate_days_count
    ⟨location, sortByDate forecasts, days_returned, cached, stale,
      cached_at, generated_at⟩

end ForecastResponse

/-! ## yr.no client (`app/services/yrno_client.py`) -/

/-- `class YrNoInstantDetails`. -/
structure YrNoInstantDetails where
  air_temperature : Rat
  cloud_area_fraction : Option Rat
  wind_speed : Option Rat
deriving Repr, DecidableEq

/-- `class YrNoInstant`. -/
structure YrNoInstant where
  details : YrNoInstantDetails
deriving Repr, DecidableEq

/-- `class YrNoTimeseriesData` (the optional `next_1_hours` /
`next_6_hours` JSON blobs are irrelevant to the core and omitted). -/
structure YrNoTimeseriesData where
  instant : YrNoInstant
deriving Repr, DecidableEq

/-- `class YrNoTimeseriesEntry`: a UTC timestamp plus data. -/
structure YrNoTimeseriesEntry where
  time : Int
  data : YrNoTimeseriesData
deriving Repr, DecidableEq

/-- Outcome of one `httpx.AsyncClient.get` call: either a response with
a status code, or a transport error (timeout, connection failure, ...)
raised as an `httpx` exception with a message. -/
inductive ProbeOutcome where
  | response (status_code : Nat)
  | transportError (msg : List Char)
deriving Repr, DecidableEq

/-- `YrNoClient.check_availability`, lines 91-109: performs the probe
request and returns `response.status_code == 200`.  There is no
`try`/`except` in the method body, so a transport error raised by the
`get` call propagates to the caller; the embedding returns it as an
`Except.error`. -/
def YrNoClient.check_availability (probe : ProbeOutcome) :
    Except (List Char) Bool :=
  match probe with
  | .response s => .ok (s == 200)
  | .transportError m => .error m

/-- `HealthService._check_yrno` (`app/services/health_service.py`,
lines 52-59): calls `check_availability` inside `try`/`except Exception`
and returns `False` when the probe raised. -/
def HealthService.check_yrno (probe : ProbeOutcome) : Bool :=
  match YrNoClient.check_availability probe with
  | .ok b => b
  | .error _ => false

/-! ## Coordinate rounding and cache-key generation

`float(f"\x7blat:.4f\x7d")` (weather_service.py lines 56-57) renders the
coordinate with four decimal digits, rounding to nearest with ties to
even (the rounding used by Python float formatting), and parses it back.
Modelled over `Rat`: the result is `round4 q` units of `1/10000`.  (The
binary-float artefacts of this pipeline — double rounding in the 16th
significant digit, the negative-zero literal `-0.0000` — are outside the
rational model.) -/

/-- Round `q` to the nearest multiple of `1/10000` (ties to even),
returning the scaled integer value. -/
def round4 (q : Rat) : Int :=
  let s := q * 10000
  let f := Rat.floor s
  let r := s - (f : Rat)
  if r < mkRat 1 2 then f
  else if mkRat 1 2 < r then f + 1
  else if f % 2 = 0 then f else f + 1

/-- The rational value of the rounded coordinate, i.e. the value of the
Python float after `float(f"\x7blat:.4f\x7d")`. -/
def quant4 (z : Int) : Rat := mkRat z 10000

/-- Decimal digit list of a natural number (most significant first), as
rendered by Python string formatting.  Structured with an explicit fuel
argument (always sufficient, see `natDigits`) so that it reduces inside
the kernel. -/
def natDigitsAux : Nat → Nat → List Char
  | 0, _ => []
  | fuel + 1, n =>
      if n < 10 then [Nat.digitChar n]
      else natDigitsAux fuel (n / 10) ++ [Nat.digitChar (n % 10)]

/-- Decimal digit list of a natural number (most significant first). -/
def natDigits (n : Nat) : List Char := natDigitsAux (n + 1) n

/-- The four fractional digits of `f"\x7bx:.4f\x7d"`, zero padded. -/
def pad4 (m : Nat) : List Char :=
  [Nat.digitChar (m / 1000), Nat.digitChar (m / 100 % 10),
    Nat.digitChar (m / 10 % 10), Nat.digitChar (m % 10)]

/-- `f"\x7bx:.4f\x7d"` applied to the 4-decimal value `quant4 z`:
optional minus sign, integer part, a dot, four fractional digits. -/
def fmt4 (z : Int) : List Char :=
  (if z < 0 then ['-'] else []) ++
    natDigits (z.natAbs / 10000) ++ '.' :: pad4 (z.natAbs % 10000)

/-- The literal prefix `"forecast:"`. -/
def keyPrefix : List Char :=
  ['f', 'o', 'r', 'e', 'c', 'a', 's', 't', ':']

/-- `CacheManager.generate_key` (`app/core/cache.py` lines 44-46):
`f"forecast:\x7blat:.4f\x7d:\x7blon:.4f\x7d"` applied to the already
rounded coordinates.  The argument here is the raw coordinate and the
rounding is fused into the formatting (for 4-decimal values the two are
the same; `round4` is idempotent, see `round4_quant4`). -/
def generate_key (lat lon : Rat) : List Char :=
  keyPrefix ++ fmt4 (round4 lat) ++ ':' :: fmt4 (round4 lon)

/-! ## Cache (`app/core/cache.py`) -/

/-- `@dataclass class CacheEntry` (cache.py lines 14-23). -/
structure CacheEntry where
  data : ForecastResponse
  created_at : Int
  hit_count : Nat
deriving Repr, DecidableEq

/-- `cachetools.TTLCache`, as used by `CacheManager`: an
insertion-ordered table of `(key, entry, expiry-time)` with at most one
item per key.  An item is live at time `now` iff `now < expiry`. -/
structure TTLCache where
  maxsize : Nat
  ttl : Int
  items : List (List Char × CacheEntry × Int)
deriving Repr, DecidableEq

namespace TTLCache

/-- First item under key `k`, if any (the table never holds two items
under one key). -/
def findItem (l : List (List Char × CacheEntry × Int)) (k : List Char) :
    Option (CacheEntry × Int) :=
  match l with
  | [] => none
  | it :: rest => if it.1 = k then some it.2 else findItem rest k

/-- `key in cache` / `cache[key]`: the item for `key`, provided it has
not expired. -/
def lookup (c : TTLCache) (now : Int) (k : List Char) : Option CacheEntry :=
  match findItem c.items k with
  | some it => if now < it.2 then some it.1 else none
  | none => none

/-- In-place mutation of the entry object stored under `k` (Python
mutates the shared `CacheEntry`; the embedding rewrites the slot). -/
def updateData (c : TTLCache) (k : List Char) (f : CacheEntry → CacheEntry) :
    TTLCache :=
  { c with items :=
      c.items.map (fun it => if it.1 = k then (it.1, f it.2.1, it.2.2) else it) }

/-- `cache[key] = entry`: drop expired items, replace any item under the
same key, append with expiry `now + ttl`, then evict oldest items while
over capacity (`cachetools` pops least-recently-used items; with the
access pattern of this service that is the insertion order). -/
def insert (c : TTLCache) (now : Int) (k : List Char) (e : CacheEntry) :
    TTLCache :=
  let alive := c.items.filter (fun it => decide (now < it.2.2))
  let removed := alive.filter (fun it => decide (it.1 ≠ k))
  let appended := removed ++ [(k, e, now + c.ttl)]
  { c with items := appended.drop (appended.length - c.maxsize) }

end TTLCache

/-- Association-list lookup, mirroring a Python `dict` probe. -/
def alistFind {α β : Type} [DecidableEq α] (l : List (α × β)) (k : α) :
    Option β :=
  match l with
  | [] => none
  | p :: rest => if p.1 = k then some p.2 else alistFind rest k

/-- Association-list store, mirroring Python `d[k] = v`: overwrite in
place when the key exists, append otherwise (dicts preserve insertion
order). -/
def alistSet {α β : Type} [DecidableEq α] (l : List (α × β)) (k : α) (v : β) :
    List (α × β) :=
  if (alistFind l k).isSome then
    l.map (fun p => if p.1 = k then (k, v) else p)
  else l ++ [(k, v)]

/-- `class CacheManager` (cache.py lines 26-103): the live TTL table, the
stale dict, and the hit/miss counters. -/
structure CacheManager where
  cache : TTLCache
  stale_cache : List (List Char × CacheEntry)
  hits : Nat
  misses : Nat
deriving Repr, DecidableEq

namespace CacheManager

/-- `CacheManager.__init__` with the default settings. -/
def init : CacheManager :=
  ⟨⟨settings.CACHE_MAX_SIZE, settings.CACHE_TTL_SECONDS, []⟩, [], 0, 0⟩

/-- `CacheManager.get` (lines 48-59): on a live hit, increment the
shared entry's `hit_count` (mutating the stored object) and the global
hit counter and return the entry; otherwise count a miss and return
`None`. -/
def get (m : CacheManager) (now : Int) (k : List Char) :
    Option CacheEntry × CacheManager :=
  match m.cache.lookup now k with
  | some e =>
      let e' := { e with hit_count := e.hit_count + 1 }
      (some e',
        { m with cache := m.cache.updateData k (fun _ => e'),
                 hits := m.hits + 1 })
  | none => (none, { m with misses := m.misses + 1 })

/-- `CacheManager.get_stale` (lines 61-67): plain dict probe, no
statistics side effects. -/
def get_stale (m : CacheManager) (k : List Char) : Option CacheEntry :=
  alistFind m.stale_cache k

/-- `CacheManager.set` (lines 69-81): build a fresh entry; if a *live*
entry exists under `key`, move it into the stale dict; then install the
fresh entry in the live table. -/
def set (m : CacheManager) (now : Int) (k : List Char)
    (d : ForecastResponse) : CacheManager :=
  let entry : CacheEntry := ⟨d, now, 0⟩
  let stale' :=
    match m.cache.lookup now k with
    | some old => alistSet m.stale_cache k old
    | none => m.stale_cache
  { m with cache := m.cache.insert now k entry, stale_cache := stale' }

/-- `CacheManager.get_hit_rate` (lines 87-92): `None` before the first
lookup, otherwise `hits / (hits + misses) * 100`. -/
def get_hit_rate (m : CacheManager) : Option Rat :=
  if m.hits + m.misses = 0 then none
  else some (mkRat (m.hits * 100) (m.hits + m.misses))

end CacheManager

/-- The cache operations a client can perform, plus the passage of time
(`tick`), which is what makes TTL expiry observable. -/
inductive CacheOp where
  | get (k : List Char)
  | getStale (k : List Char)
  | set (k : List Char) (d : ForecastResponse)
  | stats
  | tick (dt : Nat)
deriving Repr

/-- A cache together with the current clock. -/
structure CacheSys where
  mgr : CacheManager
  now : Int
deriving Repr, DecidableEq

/-- One cache operation.  `get` mutates statistics and hit counts, `set`
mutates both tables, `getStale` and `stats` are pure reads, and `tick`
advances the clock. -/
def CacheSys.step (s : CacheSys) : CacheOp → CacheSys
  | .get k => ⟨(s.mgr.get s.now k).2, s.now⟩
  | .getStale _ => s
  | .set k d => ⟨s.mgr.set s.now k d, s.now⟩
  | .stats => s
  | .tick dt => ⟨s.mgr, s.now + dt⟩

/-- A sequence of cache operations. -/
def CacheSys.run (s : CacheSys) (ops : List CacheOp) : CacheSys :=
  ops.foldl CacheSys.step s

/-- The freshly initialised cache at clock zero. -/
def CacheSys.init : CacheSys := ⟨CacheManager.init, 0⟩

/-! ## Daily sampling (`WeatherService._process_timeseries`) -/

/-- The timezone conversion `timezone_service.to_local_time(utc, lat,
lon, override)` for one fixed coordinate/override: maps a UTC timestamp
to a local calendar date and wall-clock seconds.  The timezone database
is external, so the function is a parameter of the embedding. -/
def Localizer : Type := Int → LocalDateTime

/-- `datetime.combine(forecast_date, time(TARGET_HOUR, TARGET_MINUTE))`,
as seconds after local midnight. -/
def targetSeconds : Int :=
  settings.TARGET_HOUR * 3600 + settings.TARGET_MINUTE * 60

/-- `time_diff = abs((local_time - target_time).total_seconds())`: both
datetimes carry the same date and tzinfo, so the difference is the
wall-clock distance from the 14:00 target. -/
def timeDiff (loc : Localizer) (e : YrNoTimeseriesEntry) : Nat :=
  ((loc e.time).sod - targetSeconds).natAbs

/-- The `TemperatureReading(...)` literal built at weather_service.py
lines 198-204 / 210-216. -/
def mkReading (loc : Localizer) (e : YrNoTimeseriesEntry) :
    TemperatureReading :=
  let lt := loc e.time
  ⟨lt.date, e.data.instant.details.air_temperature, .celsius, lt.sod, e.time⟩

/-- One iteration of the `for entry in timeseries` loop (lines 182-217):
first sample for a date is installed; a later sample replaces the
stored champion only when its `time_diff` is strictly smaller. -/
def processStep (loc : Localizer)
    (acc : List (Int × Nat × TemperatureReading)) (e : YrNoTimeseriesEntry) :
    List (Int × Nat × TemperatureReading) :=
  let d := (loc e.time).date
  let td := timeDiff loc e
  match alistFind acc d with
  | none => acc ++ [(d, td, mkReading loc e)]
  | some cur =>
      if td < cur.1 then alistSet acc d (td, mkReading loc e) else acc

/-- The `readings_by_date` dict after the loop: date ↦ (best time_diff,
chosen reading), in first-seen date order. -/
def readings_by_date (loc : Localizer) (ts : List YrNoTimeseriesEntry) :
    List (Int × Nat × TemperatureReading) :=
  ts.foldl (processStep loc) []

/-- `WeatherService._process_timeseries` (lines 161-224): champions of
`readings_by_date`, sorted by date. -/
def process_timeseries (loc : Localizer) (ts : List YrNoTimeseriesEntry) :
    List TemperatureReading :=
  sortByDate ((readings_by_date loc ts).map (fun p => p.2.2))

/-- The specification's selection rule, transcribed from spec §4.1 for
comparison with the implementation: among the samples of one local
calendar date, scanned in encounter order, keep the sample whose
distance from the 14:00 target is strictly smaller than the current
champion's, ties keeping the first-seen sample. -/
def specChampion (loc : Localizer) (ts : List YrNoTimeseriesEntry)
    (d : Int) : Option YrNoTimeseriesEntry :=
  (ts.filter (fun e => decide ((loc e.time).date = d))).foldl
    (fun best e =>
      match best with
      | none => some e
      | some b => if timeDiff loc e < timeDiff loc b then some e else some b)
    none

/-! ## Forecast service (`app/services/weather_service.py`) -/

/-- The message prefix of the `httpx.HTTPError` re-raised at
weather_service.py line 123. -/
def unavailableMsg : List Char :=
  ['y', 'r', '.', 'n', 'o', ' ', 'A', 'P', 'I', ' ',
   'u', 'n', 'a', 'v', 'a', 'i', 'l', 'a', 'b', 'l', 'e', ':', ' ']

/-- The per-request external environment of one `get_forecast` call:
the outcome the upstream fetch would have for this coordinate, the
timezone conversion for this coordinate/override, and the wall clock. -/
structure FetchEnv where
  fetch : Except (List Char) (List YrNoTimeseriesEntry)
  localize : Localizer
  now : Int

namespace WeatherService

/-- `WeatherService._convert_units` (lines 226-240): each reading is
rebuilt via `model_copy` (a fresh reading object), but the forecasts
*list* is assigned back onto the same response object. -/
def convert_units (r : ForecastResponse) (target : TemperatureUnit) :
    ForecastResponse :=
  { r with forecasts :=
      r.forecasts.map (fun rd =>
        { rd with temperature := target.convert_from_celsius rd.temperature,
                  unit := target }) }

/-- `WeatherService._filter_days` (lines 242-246): truncate the list in
place and recompute `days_returned`. -/
def filter_days (r : ForecastResponse) (days : Nat) : ForecastResponse :=
  { r with forecasts := r.forecasts.take days,
           days_returned := (r.forecasts.take days).length }

/-- The post-processing block repeated at lines 69-75, 93-96, 115-118
and 151-157: `if unit != CELSIUS: convert; if days: filter`.  Note that
Python `if days:` is false both for `None` and for `0`. -/
def postProcess (unit : TemperatureUnit) (days : Option Nat)
    (r : ForecastResponse) : ForecastResponse :=
  let r1 := if unit = TemperatureUnit.celsius then r else convert_units r unit
  match days with
  | some d => if d = 0 then r1 else filter_days r1 d
  | none => r1

/-- The cache-hit return path (lines 63-77 and 87-98): stamp
`cached=True`, `cached_at` on the *shared* response object, post-process
it in place, and return it.  Because `response` is the very object held
by the live cache slot, the embedding writes the final value back into
the slot. -/
def serveFromLive (unit : TemperatureUnit) (days : Option Nat)
    (key : List Char) (entry : CacheEntry) (mgr : CacheManager) :
    Except (List Char) ForecastResponse × CacheManager :=
  let response :=
    { entry.data with cached := true, cached_at := some entry.created_at }
  let final := postProcess unit days response
  (Except.ok final,
    { mgr with cache :=
        mgr.cache.updateData key (fun e => { e with data := final }) })

/-- `WeatherService.get_forecast` (lines 32-159), for a single request
(the per-key `asyncio.Lock` serialises overlapping requests; its
concurrent behaviour is modelled separately by `Herd.Step`).  The state
threading makes the Python object aliasing explicit: whenever a response
object that is also referenced by a cache slot is mutated, the slot is
updated too. -/
def get_forecast (env : FetchEnv) (mgr : CacheManager) (lat lon : Rat)
    (location_name : Option (List Char)) (days : Option Nat)
    (unit : TemperatureUnit) :
    Except (List Char) ForecastResponse × CacheManager :=
  let lat := quant4 (round4 lat)
  let lon := quant4 (round4 lon)
  let cache_key := generate_key lat lon
  match mgr.get env.now cache_key with
  | (some entry, mgr1) => serveFromLive unit days cache_key entry mgr1
  | (none, mgr1) =>
    -- double-check after acquiring the per-key lock
    match mgr1.get env.now cache_key with
    | (some entry, mgr2) => serveFromLive unit days cache_key entry mgr2
    | (none, mgr2) =>
      match env.fetch with
      | .error e =>
          match mgr2.get_stale cache_key with
          | some sEntry =>
              let response :=
                { sEntry.data with cached := true, stale := true,
                                   cached_at := some sEntry.created_at }
              let final := postProcess unit days response
              let stale2 :=
                alistSet mgr2.stale_cache cache_key
                  ({ sEntry with data := final })
              (Except.ok final, { mgr2 with stale_cache := stale2 })
          | none => (Except.error (unavailableMsg ++ e), mgr2)
      | .ok timeseries =>
          let readings := process_timeseries env.localize timeseries
          let location : Location := ⟨lat, lon, location_name⟩
          let response := ForecastResponse.construct location readings
            readings.length false false none env.now
          let mgr3 := mgr2.set env.now cache_key response
          let final := postProcess unit days response
          let cache4 :=
            mgr3.cache.updateData cache_key (fun e => { e with data := final })
          (Except.ok final, { mgr3 with cache := cache4 })

end WeatherService

/-! ## Thundering-herd protection (weather_service.py lines 22-23, 79-98)

Overlapping `get_forecast` requests are serialised per cache key by
`fetch_locks[lock_key]` (an `asyncio.Lock`).  The control flow of one
request, restricted to the cache/lock interactions for its own key, is:
probe the cache (lines 62-63); on a miss acquire the per-key lock
(line 84); re-probe under the lock (line 86); on a miss perform the
single upstream fetch (line 102) and store the result (line 149),
which re-populates the cache, then release the lock.  The interleaving
of `N` such requests is modelled as a labelled transition system; the
asyncio event loop can only switch between requests at `await` points,
so this model (which interleaves at every step) over-approximates the
possible schedules. -/

namespace Herd

/-- Position of one request in the `get_forecast` control flow. -/
inductive PC where
  | probe
  | acquire
  | recheck
  | fetch
  | store
  | done
deriving Repr, DecidableEq

/-- Shared state of `n` overlapping requests over keys `K`: whether the
cache holds a fresh entry for each key, the holder of each per-key lock,
how many upstream fetches were issued per key, and each request's
position. -/
structure HState (n : Nat) (K : Type) where
  cachePop : K → Bool
  lock : K → Option (Fin n)
  fetches : K → Nat
  pc : Fin n → PC

/-- All requests at the start, empty cache, free locks, no fetches:
"N concurrent requests for the same new (uncached) coordinate". -/
def HState.init (n : Nat) (K : Type) : HState n K :=
  ⟨fun _ => false, fun _ => none, fun _ => 0, fun _ => .probe⟩

/-- One scheduler step: request `i` executes its next action.  `key i`
is the cache key of request `i`.  A request only ever consults the
cache slot and the lock of *its own* key. -/
inductive Step {n : Nat} {K : Type} [DecidableEq K] (key : Fin n → K) :
    HState n K → HState n K → Prop where
  | probeHit (s : HState n K) (i : Fin n) (hpc : s.pc i = .probe)
      (hc : s.cachePop (key i) = true) :
      Step key s { s with pc := Function.update s.pc i .done }
  | probeMiss (s : HState n K) (i : Fin n) (hpc : s.pc i = .probe)
      (hc : s.cachePop (key i) = false) :
      Step key s { s with pc := Function.update s.pc i .acquire }
  | acquire (s : HState n K) (i : Fin n) (hpc : s.pc i = .acquire)
      (hl : s.lock (key i) = none) :
      Step key s { s with lock := Function.update s.lock (key i) (some i),
                          pc := Function.update s.pc i .recheck }
  | recheckHit (s : HState n K) (i : Fin n) (hpc : s.pc i = .recheck)
      (hc : s.cachePop (key i) = true) :
      Step key s { s with lock := Function.update s.lock (key i) none,
                          pc := Function.update s.pc i .done }
  | recheckMiss (s : HState n K) (i : Fin n) (hpc : s.pc i = .recheck)
      (hc : s.cachePop (key i) = false) :
      Step key s { s with pc := Function.update s.pc i .fetch }
  | fetchDo (s : HState n K) (i : Fin n) (hpc : s.pc i = .fetch) :
      Step key s { s with
        fetches := Function.update s.fetches (key i) (s.fetches (key i) + 1),
        pc := Function.update s.pc i .store }
  | storeDo (s : HState n K) (i : Fin n) (hpc : s.pc i = .store) :
      Step key s { s with
        cachePop := Function.update s.cachePop (key i) true,
        lock := Function.update s.lock (key i) none,
        pc := Function.update s.pc i .done }

/-- States reachable from the all-new start. -/
def Reach {n : Nat} {K : Type} [DecidableEq K] (key : Fin n → K)
    (s : HState n K) : Prop :=
  Relation.ReflTransGen (Step key) (HState.init n K) s

/-- A request is between lock acquisition and lock release. -/
def inCrit (p : PC) : Prop := p = .recheck ∨ p = .fetch ∨ p = .store

/-- The inductive invariant of the lock protocol. -/
structure Inv {n : Nat} {K : Type} [DecidableEq K] (key : Fin n → K)
    (s : HState n K) : Prop where
  lockOwner : ∀ k i, s.lock k = some i → key i = k ∧ inCrit (s.pc i)
  critLock : ∀ i, inCrit (s.pc i) → s.lock (key i) = some i
  fetchFresh : ∀ i, s.pc i = .fetch ∨ s.pc i = .store →
    s.cachePop (key i) = false
  donePop : ∀ i, s.pc i = .done → s.cachePop (key i) = true
  popOwned : ∀ k, s.cachePop k = true → ∃ i, key i = k
  fetchCount : ∀ k, s.fetches k =
    (if s.cachePop k = true then 1 else 0) +
    (if ∃ i, key i = k ∧ s.pc i = .store then 1 else 0)

/-- Updating a request whose old and new positions are both different
from `store` does not change which keys have a request at `store`. -/
theorem exists_store_update_iff {n : Nat} {K : Type} [DecidableEq K]
    (key : Fin n → K) (pc : Fin n → PC) (i : Fin n) (p : PC)
    (hpi : pc i ≠ PC.store) (hp : p ≠ PC.store) (k : K) :
    (∃ j, key j = k ∧ Function.update pc i p j = PC.store) ↔
      (∃ j, key j = k ∧ pc j = PC.store) := by
  constructor
  · rintro ⟨j, hk, hs⟩
    rcases eq_or_ne j i with rfl | hne
    · rw [Function.update_same] at hs
      exact absurd hs hp
    · rw [Function.update_noteq hne] at hs
      exact ⟨j, hk, hs⟩
  · rintro ⟨j, hk, hs⟩
    rcases eq_or_ne j i with rfl | hne
    · exact absurd hs hpi
    · refine ⟨j, hk, ?_⟩
      rw [Function.update_noteq hne]
      exact hs

/-- Updating a request whose key is not `k` does not change whether key
`k` has a request at `store`. -/
theorem exists_store_update_iff_of_key_ne {n : Nat} {K : Type}
    [DecidableEq K] (key : Fin n → K) (pc : Fin n → PC) (i : Fin n) (p : PC)
    (k : K) (hk : key i ≠ k) :
    (∃ j, key j = k ∧ Function.update pc i p j = PC.store) ↔
      (∃ j, key j = k ∧ pc j = PC.store) := by
  constructor
  · rintro ⟨j, hkj, hs⟩
    rcases eq_or_ne j i with rfl | hne
    · exact absurd hkj hk
    · rw [Function.update_noteq hne] at hs
      exact ⟨j, hkj, hs⟩
  · rintro ⟨j, hkj, hs⟩
    rcases eq_or_ne j i with rfl | hne
    · exact absurd hkj hk
    · refine ⟨j, hkj, ?_⟩
      rw [Function.update_noteq hne]
      exact hs

/-- The protocol invariant holds at the initial state. -/
theorem inv_init {n : Nat} {K : Type} [DecidableEq K] (key : Fin n → K) :
    Inv key (HState.init n K) := by
  refine ⟨?_, ?_, ?_, ?_, ?_, ?_⟩
  · intro k i h
    simp [HState.init] at h
  · intro i h
    simp [HState.init, inCrit] at h
  · intro i h
    simp [HState.init] at h
  · intro i h
    simp [HState.init] at h
  · intro k h
    simp [HState.init] at h
  · intro k
    have hno : ¬ ∃ i, key i = k ∧ (HState.init n K).pc i = PC.store := by
      rintro ⟨i, -, h⟩
      simp [HState.init] at h
    simp [HState.init, hno]

/-- Every step preserves the protocol invariant. -/
theorem inv_step {n : Nat} {K : Type} [DecidableEq K] {key : Fin n → K}
    {s s' : HState n K} (hinv : Inv key s) (hstep : Step key s s') :
    Inv key s' := by
  obtain ⟨hLO, hCL, hFF, hDP, hPO, hFC⟩ := hinv
  cases hstep with
  | probeHit i hpc hc =>
    refine ⟨?_, ?_, ?_, ?_, hPO, ?_⟩
    all_goals dsimp only
    · intro k j hl
      obtain ⟨hk, hcrit⟩ := hLO k j hl
      rcases eq_or_ne j i with rfl | hne
      · rw [hpc] at hcrit
        simp [inCrit] at hcrit
      · refine ⟨hk, ?_⟩
        simpa [Function.update_noteq hne] using hcrit
    · intro j hcrit
      rcases eq_or_ne j i with rfl | hne
      · rw [Function.update_same] at hcrit
        simp [inCrit] at hcrit
      · rw [Function.update_noteq hne] at hcrit
        exact hCL j hcrit
    · intro j hj
      rcases eq_or_ne j i with rfl | hne
      · rw [Function.update_same] at hj
        rcases hj with h | h <;> exact absurd h (by decide)
      · rw [Function.update_noteq hne] at hj
        exact hFF j hj
    · intro j hj
      rcases eq_or_ne j i with rfl | hne
      · exact hc
      · rw [Function.update_noteq hne] at hj
        exact hDP j hj
    · intro k
      simp only [exists_store_update_iff key s.pc i PC.done
        (by rw [hpc]; decide) (by decide) k]
      exact hFC k
  | probeMiss i hpc hc =>
    refine ⟨?_, ?_, ?_, ?_, hPO, ?_⟩
    all_goals dsimp only
    · intro k j hl
      obtain ⟨hk, hcrit⟩ := hLO k j hl
      rcases eq_or_ne j i with rfl | hne
      · rw [hpc] at hcrit
        simp [inCrit] at hcrit
      · refine ⟨hk, ?_⟩
        simpa [Function.update_noteq hne] using hcrit
    · intro j hcrit
      rcases eq_or_ne j i with rfl | hne
      · rw [Function.update_same] at hcrit
        simp [inCrit] at hcrit
      · rw [Function.update_noteq hne] at hcrit
        exact hCL j hcrit
    · intro j hj
      rcases eq_or_ne j i with rfl | hne
      · rw [Function.update_same] at hj
        rcases hj with h | h <;> exact absurd h (by decide)
      · rw [Function.update_noteq hne] at hj
        exact hFF j hj
    · intro j hj
      rcases eq_or_ne j i with rfl | hne
      · rw [Function.update_same] at hj
        exact absurd hj (by decide)
      · rw [Function.update_noteq hne] at hj
        exact hDP j hj
    · intro k
      simp only [exists_store_update_iff key s.pc i PC.acquire
        (by rw [hpc]; decide) (by decide) k]
      exact hFC k
  | acquire i hpc hl =>
    refine ⟨?_, ?_, ?_, ?_, hPO, ?_⟩
    all_goals dsimp only
    · intro k j hl2
      rcases eq_or_ne k (key i) with rfl | hkne
      · rw [Function.update_same] at hl2
        obtain rfl : i = j := by
          injection hl2
        refine ⟨rfl, ?_⟩
        rw [Function.update_same]
        simp [inCrit]
      · rw [Function.update_noteq hkne] at hl2
        obtain ⟨hk, hcrit⟩ := hLO k j hl2
        rcases eq_or_ne j i with rfl | hne
        · rw [hpc] at hcrit
          simp [inCrit] at hcrit
        · refine ⟨hk, ?_⟩
          simpa [Function.update_noteq hne] using hcrit
    · intro j hcrit
      rcases eq_or_ne j i with rfl | hne
      · rw [Function.update_same]
      · rw [Function.update_noteq hne] at hcrit
        have hj := hCL j hcrit
        have hkne : key j ≠ key i := by
          intro he
          rw [he, hl] at hj
          exact Option.noConfusion hj
        rw [Function.update_noteq hkne]
        exact hj
    · intro j hj
      rcases eq_or_ne j i with rfl | hne
      · rw [Function.update_same] at hj
        rcases hj with h | h <;> exact absurd h (by decide)
      · rw [Function.update_noteq hne] at hj
        exact hFF j hj
    · intro j hj
      rcases eq_or_ne j i with rfl | hne
      · rw [Function.update_same] at hj
        exact absurd hj (by decide)
      · rw [Function.update_noteq hne] at hj
        exact hDP j hj
    · intro k
      simp only [exists_store_update_iff key s.pc i PC.recheck
        (by rw [hpc]; decide) (by decide) k]
      exact hFC k
  | recheckHit i hpc hc =>
    refine ⟨?_, ?_, ?_, ?_, hPO, ?_⟩
    all_goals dsimp only
    · intro k j hl2
      rcases eq_or_ne k (key i) with rfl | hkne
      · rw [Function.update_same] at hl2
        exact Option.noConfusion hl2
      · rw [Function.update_noteq hkne] at hl2
        obtain ⟨hk, hcrit⟩ := hLO k j hl2
        rcases eq_or_ne j i with rfl | hne
        · exact absurd hk (Ne.symm hkne)
        · refine ⟨hk, ?_⟩
          simpa [Function.update_noteq hne] using hcrit
    · intro j hcrit
      rcases eq_or_ne j i with rfl | hne
      · rw [Function.update_same] at hcrit
        simp [inCrit] at hcrit
      · rw [Function.update_noteq hne] at hcrit
        have hj := hCL j hcrit
        have hi := hCL i (by rw [hpc]; exact Or.inl rfl)
        have hkne : key j ≠ key i := by
          intro he
          rw [he, hi] at hj
          have hij : i = j := by injection hj
          exact hne hij.symm
        rw [Function.update_noteq hkne]
        exact hj
    · intro j hj
      rcases eq_or_ne j i with rfl | hne
      · rw [Function.update_same] at hj
        rcases hj with h | h <;> exact absurd h (by decide)
      · rw [Function.update_noteq hne] at hj
        exact hFF j hj
    · intro j hj
      rcases eq_or_ne j i with rfl | hne
      · exact hc
      · rw [Function.update_noteq hne] at hj
        exact hDP j hj
    · intro k
      simp only [exists_store_update_iff key s.pc i PC.done
        (by rw [hpc]; decide) (by decide) k]
      exact hFC k
  | recheckMiss i hpc hc =>
    refine ⟨?_, ?_, ?_, ?_, hPO, ?_⟩
    all_goals dsimp only
    · intro k j hl2
      obtain ⟨hk, hcrit⟩ := hLO k j hl2
      rcases eq_or_ne j i with rfl | hne
      · refine ⟨hk, ?_⟩
        rw [Function.update_same]
        simp [inCrit]
      · refine ⟨hk, ?_⟩
        simpa [Function.update_noteq hne] using hcrit
    · intro j hcrit
      rcases eq_or_ne j i with rfl | hne
      · exact hCL j (by rw [hpc]; exact Or.inl rfl)
      · rw [Function.update_noteq hne] at hcrit
        exact hCL j hcrit
    · intro j hj
      rcases eq_or_ne j i with rfl | hne
      · exact hc
      · rw [Function.update_noteq hne] at hj
        exact hFF j hj
    · intro j hj
      rcases eq_or_ne j i with rfl | hne
      · rw [Function.update_same] at hj
        exact absurd hj (by decide)
      · rw [Function.update_noteq hne] at hj
        exact hDP j hj
    · intro k
      simp only [exists_store_update_iff key s.pc i PC.fetch
        (by rw [hpc]; decide) (by decide) k]
      exact hFC k
  | fetchDo i hpc =>
    refine ⟨?_, ?_, ?_, ?_, hPO, ?_⟩
    all_goals dsimp only
    · intro k j hl2
      obtain ⟨hk, hcrit⟩ := hLO k j hl2
      rcases eq_or_ne j i with rfl | hne
      · refine ⟨hk, ?_⟩
        rw [Function.update_same]
        simp [inCrit]
      · refine ⟨hk, ?_⟩
        simpa [Function.update_noteq hne] using hcrit
    · intro j hcrit
      rcases eq_or_ne j i with rfl | hne
      · exact hCL j (by rw [hpc]; exact Or.inr (Or.inl rfl))
      · rw [Function.update_noteq hne] at hcrit
        exact hCL j hcrit
    · intro j hj
      rcases eq_or_ne j i with rfl | hne
      · exact hFF j (Or.inl hpc)
      · rw [Function.update_noteq hne] at hj
        exact hFF j hj
    · intro j hj
      rcases eq_or_ne j i with rfl | hne
      · rw [Function.update_same] at hj
        exact absurd hj (by decide)
      · rw [Function.update_noteq hne] at hj
        exact hDP j hj
    · intro k
      rcases eq_or_ne (key i) k with rfl | hkne
      · have hpop : s.cachePop (key i) = false := hFF i (Or.inl hpc)
        have hnostore : ¬ ∃ j, key j = key i ∧ s.pc j = PC.store := by
          rintro ⟨j, hkj, hsj⟩
          have hj := hCL j (by rw [hsj]; exact Or.inr (Or.inr rfl))
          have hi := hCL i (by rw [hpc]; exact Or.inr (Or.inl rfl))
          rw [hkj, hi] at hj
          have : i = j := by injection hj
          rw [← this, hpc] at hsj
          exact PC.noConfusion hsj
        have hstore : ∃ j, key j = key i ∧
            Function.update s.pc i PC.store j = PC.store := by
          exact ⟨i, rfl, by rw [Function.update_same]⟩
        rw [Function.update_same]
        have hold := hFC (key i)
        rw [if_neg (by rw [hpop]; exact Bool.false_ne_true),
          if_neg hnostore] at hold
        rw [if_neg (by rw [hpop]; exact Bool.false_ne_true), if_pos hstore,
          hold]
      · simp only [Function.update_noteq (Ne.symm hkne),
          exists_store_update_iff_of_key_ne key s.pc i PC.store k hkne]
        exact hFC k
  | storeDo i hpc =>
    have hlocki := hCL i (by rw [hpc]; exact Or.inr (Or.inr rfl))
    refine ⟨?_, ?_, ?_, ?_, ?_, ?_⟩
    all_goals dsimp only
    · intro k j hl2
      rcases eq_or_ne k (key i) with rfl | hkne
      · rw [Function.update_same] at hl2
        exact Option.noConfusion hl2
      · rw [Function.update_noteq hkne] at hl2
        obtain ⟨hk, hcrit⟩ := hLO k j hl2
        rcases eq_or_ne j i with rfl | hne
        · exact absurd hk (Ne.symm hkne)
        · refine ⟨hk, ?_⟩
          simpa [Function.update_noteq hne] using hcrit
    · intro j hcrit
      rcases eq_or_ne j i with rfl | hne
      · rw [Function.update_same] at hcrit
        simp [inCrit] at hcrit
      · rw [Function.update_noteq hne] at hcrit
        have hj := hCL j hcrit
        have hkne : key j ≠ key i := by
          intro he
          rw [he, hlocki] at hj
          have hij : i = j := by injection hj
          exact hne hij.symm
        rw [Function.update_noteq hkne]
        exact hj
    · intro j hj
      rcases eq_or_ne j i with rfl | hne
      · rw [Function.update_same] at hj
        rcases hj with h | h <;> exact absurd h (by decide)
      · rw [Function.update_noteq hne] at hj
        have hjf := hFF j hj
        have hjcrit : inCrit (s.pc j) := by
          rcases hj with h | h
          · rw [h]; exact Or.inr (Or.inl rfl)
          · rw [h]; exact Or.inr (Or.inr rfl)
        have hkne : key j ≠ key i := by
          intro he
          have hlj := hCL j hjcrit
          rw [he, hlocki] at hlj
          have hij : i = j := by injection hlj
          exact hne hij.symm
        rw [Function.update_noteq hkne]
        exact hjf
    · intro j hj
      rcases eq_or_ne (key j) (key i) with hke | hkne
      · rw [hke, Function.update_same]
      · rw [Function.update_noteq hkne]
        rcases eq_or_ne j i with rfl | hne
        · exact absurd rfl hkne
        · rw [Function.update_noteq hne] at hj
          exact hDP j hj
    · intro k hk
      rcases eq_or_ne k (key i) with rfl | hkne
      · exact ⟨i, rfl⟩
      · rw [Function.update_noteq hkne] at hk
        exact hPO k hk
    · intro k
      rcases eq_or_ne (key i) k with rfl | hkne
      · have hpop : s.cachePop (key i) = false := hFF i (Or.inr hpc)
        have holdstore : ∃ j, key j = key i ∧ s.pc j = PC.store :=
          ⟨i, rfl, hpc⟩
        have hnonew : ¬ ∃ j, key j = key i ∧
            Function.update s.pc i PC.done j = PC.store := by
          rintro ⟨j, hkj, hsj⟩
          rcases eq_or_ne j i with rfl | hne
          · rw [Function.update_same] at hsj
            exact PC.noConfusion hsj
          · rw [Function.update_noteq hne] at hsj
            have hj := hCL j (by rw [hsj]; exact Or.inr (Or.inr rfl))
            rw [hkj, hlocki] at hj
            have hij : i = j := by injection hj
            exact hne hij.symm
        have hold := hFC (key i)
        rw [if_neg (by rw [hpop]; exact Bool.false_ne_true),
          if_pos holdstore] at hold
        rw [Function.update_same, if_pos rfl, if_neg hnonew, hold]
      · simp only [Function.update_noteq (Ne.symm hkne),
          exists_store_update_iff_of_key_ne key s.pc i PC.done k hkne]
        exact hFC k

/-- Every reachable state satisfies the protocol invariant. -/
theorem reach_inv {n : Nat} {K : Type} [DecidableEq K] {key : Fin n → K}
    {s : HState n K} (h : Reach key s) : Inv key s := by
  induction h with
  | refl => exact inv_init key
  | tail _ hbc ih => exact inv_step ih hbc

/-- In a reachable state where every request has finished, each key with
at least one request has seen exactly one upstream fetch, and every
other key has seen none. -/
theorem fetches_at_done {n : Nat} {K : Type} [DecidableEq K]
    {key : Fin n → K} {s : HState n K} (hreach : Reach key s)
    (hdone : ∀ i, s.pc i = PC.done) (k : K) :
    s.fetches k = if ∃ i, key i = k then 1 else 0 := by
  have hinv := reach_inv hreach
  have hFC := hinv.fetchCount k
  have hnostore : ¬ ∃ i, key i = k ∧ s.pc i = PC.store := by
    rintro ⟨i, -, hsi⟩
    rw [hdone i] at hsi
    exact PC.noConfusion hsi
  rw [if_neg hnostore] at hFC
  by_cases h : ∃ i, key i = k
  · obtain ⟨i, rfl⟩ := h
    have hpop := hinv.donePop i (hdone i)
    rw [if_pos ⟨i, rfl⟩, hFC, if_pos hpop]
  · have hpop : s.cachePop k = false := by
      cases hcp : s.cachePop k
      · rfl
      · exact absurd (hinv.popOwned k hcp) h
    rw [if_neg h, hFC, if_neg (by rw [hpop]; exact Bool.false_ne_true)]

/-- A request that has not finished can always take a step, provided
only that, when it is about to acquire, the lock *of its own key* is
free: requests over other keys never block it. -/
theorem progress {n : Nat} {K : Type} [DecidableEq K] (key : Fin n → K)
    (s : HState n K) (i : Fin n) (hnd : s.pc i ≠ PC.done)
    (hacq : s.pc i = PC.acquire → s.lock (key i) = none) :
    ∃ s', Step key s s' := by
  cases hpc : s.pc i with
  | probe =>
    cases hc : s.cachePop (key i)
    · exact ⟨_, Step.probeMiss s i hpc hc⟩
    · exact ⟨_, Step.probeHit s i hpc hc⟩
  | acquire => exact ⟨_, Step.acquire s i hpc (hacq hpc)⟩
  | recheck =>
    cases hc : s.cachePop (key i)
    · exact ⟨_, Step.recheckMiss s i hpc hc⟩
    · exact ⟨_, Step.recheckHit s i hpc hc⟩
  | fetch => exact ⟨_, Step.fetchDo s i hpc⟩
  | store => exact ⟨_, Step.storeDo s i hpc⟩
  | done => exact absurd hpc hnd

end Herd

/-! ## Association-list lemmas -/

theorem alistFind_map_set {α β : Type} [DecidableEq α]
    (l : List (α × β)) (k : α) (v : β) (h : (alistFind l k).isSome) :
    alistFind (l.map (fun p => if p.1 = k then (k, v) else p)) k = some v := by
  induction l with
  | nil => simp [alistFind] at h
  | cons p rest ih =>
    by_cases hp : p.1 = k
    · simp [alistFind, hp]
    · have h' : (alistFind rest k).isSome := by
        simpa [alistFind, hp] using h
      simpa [alistFind, hp] using ih h'

theorem alistFind_append_single {α β : Type} [DecidableEq α]
    (l : List (α × β)) (k : α) (v : β) (h : alistFind l k = none) :
    alistFind (l ++ [(k, v)]) k = some v := by
  induction l with
  | nil => simp [alistFind]
  | cons p rest ih =>
    by_cases hp : p.1 = k
    · simp [alistFind, hp] at h
    · have h' : alistFind rest k = none := by
        simpa [alistFind, hp] using h
      simpa [alistFind, hp] using ih h'

/-- Storing under `k` makes the binding of `k` equal `v`. -/
theorem alistFind_alistSet_self {α β : Type} [DecidableEq α]
    (l : List (α × β)) (k : α) (v : β) :
    alistFind (alistSet l k v) k = some v := by
  unfold alistSet
  by_cases h : (alistFind l k).isSome
  · rw [if_pos h]
    exact alistFind_map_set l k v h
  · rw [if_neg h]
    exact alistFind_append_single l k v (Option.not_isSome_iff_eq_none.mp h)

theorem alistFind_append {α β : Type} [DecidableEq α]
    (l1 l2 : List (α × β)) (k : α) :
    alistFind (l1 ++ l2) k =
      (match alistFind l1 k with
       | some v => some v
       | none => alistFind l2 k) := by
  induction l1 with
  | nil => simp [alistFind]
  | cons p rest ih =>
    by_cases hp : p.1 = k
    · simp [alistFind, hp]
    · simpa [alistFind, hp] using ih

theorem alistFind_map_set_ne {α β : Type} [DecidableEq α]
    (l : List (α × β)) (k : α) (v : β) (k' : α) (h : k' ≠ k) :
    alistFind (l.map (fun p => if p.1 = k then (k, v) else p)) k' =
      alistFind l k' := by
  induction l with
  | nil => rfl
  | cons p rest ih =>
    by_cases hp : p.1 = k
    · have hp' : p.1 ≠ k' := by rw [hp]; exact Ne.symm h
      simp [alistFind, hp, Ne.symm h, hp', ih]
    · by_cases hp' : p.1 = k'
      · simp [alistFind, hp, hp', h]
      · simp [alistFind, hp, hp', ih]

/-- Storing under `k` does not change other bindings. -/
theorem alistFind_alistSet_ne {α β : Type} [DecidableEq α]
    (l : List (α × β)) (k : α) (v : β) (k' : α) (h : k' ≠ k) :
    alistFind (alistSet l k v) k' = alistFind l k' := by
  unfold alistSet
  by_cases hs : (alistFind l k).isSome
  · rw [if_pos hs]
    exact alistFind_map_set_ne l k v k' h
  · rw [if_neg hs, alistFind_append]
    cases hfind : alistFind l k' with
    | some v' => rfl
    | none => simp [alistFind, Ne.symm h]

theorem alistFind_eq_none_iff_not_mem_keys {α β : Type} [DecidableEq α]
    (l : List (α × β)) (k : α) :
    alistFind l k = none ↔ k ∉ l.map Prod.fst := by
  induction l with
  | nil => simp [alistFind]
  | cons p rest ih =>
    by_cases hp : p.1 = k
    · simp [alistFind, hp]
    · simp [alistFind, hp, ih, Ne.symm hp]

/-- `alistSet` on a present key keeps the key list unchanged. -/
theorem alistSet_keys_of_isSome {α β : Type} [DecidableEq α]
    (l : List (α × β)) (k : α) (v : β) (h : (alistFind l k).isSome) :
    (alistSet l k v).map Prod.fst = l.map Prod.fst := by
  unfold alistSet
  rw [if_pos h, List.map_map]
  refine List.map_congr_left ?_
  intro p _
  by_cases hp : p.1 = k
  · simp [hp]
  · simp [hp]

/-! ## Cache-operation lemmas (for the stale-retention claims) -/

/-- `CacheManager.get` never touches the stale dict. -/
theorem get_stale_cache_eq (m : CacheManager) (now : Int) (k : List Char) :
    ((m.get now k).2).stale_cache = m.stale_cache := by
  unfold CacheManager.get
  cases m.cache.lookup now k <;> rfl

/-- `CacheManager.get` never touches the live table's contents' keys...
the live table itself changes only via `updateData` (same keys). -/
theorem get_cache_lookup_eq_of_none (m : CacheManager) (now : Int)
    (k : List Char) (h : (m.get now k).1 = none) :
    ((m.get now k).2).cache = m.cache := by
  unfold CacheManager.get at h ⊢
  cases hc : m.cache.lookup now k with
  | some e =>
    rw [hc] at h
    simp at h
  | none => rfl

/-- No cache operation ever removes a stale binding: once
`get_stale k` answers, it keeps answering after any further operation. -/
theorem stale_isSome_step (s : CacheSys) (op : CacheOp) (k : List Char)
    (h : (s.mgr.get_stale k).isSome) :
    (((s.step op).mgr).get_stale k).isSome := by
  cases op with
  | get k' =>
    unfold CacheSys.step
    dsimp only
    unfold CacheManager.get_stale at h ⊢
    rw [get_stale_cache_eq]
    exact h
  | getStale k' => exact h
  | set k' d =>
    unfold CacheSys.step
    dsimp only
    unfold CacheManager.get_stale at h ⊢
    unfold CacheManager.set
    dsimp only
    cases hl : s.mgr.cache.lookup s.now k' with
    | some old =>
      dsimp only
      by_cases hk : k = k'
      · rw [hk, alistFind_alistSet_self]
        rfl
      · rw [alistFind_alistSet_ne s.mgr.stale_cache k' old k hk]
        exact h
    | none => exact h
  | stats => exact h
  | tick dt => exact h

/-- Stale bindings survive arbitrary operation sequences. -/
theorem stale_isSome_run (s : CacheSys) (ops : List CacheOp) (k : List Char)
    (h : (s.mgr.get_stale k).isSome) :
    (((s.run ops).mgr).get_stale k).isSome := by
  induction ops generalizing s with
  | nil => exact h
  | cons op rest ih => exact ih (s.step op) (stale_isSome_step s op k h)

/-! ## Daily-sampling lemmas -/

/-- The per-date effect of one loop iteration on the champion slot of a
single date, phrased over the optional current champion. -/
def champStep (loc : Localizer) (best : Option (Nat × TemperatureReading))
    (e : YrNoTimeseriesEntry) : Option (Nat × TemperatureReading) :=
  match best with
  | none => some (timeDiff loc e, mkReading loc e)
  | some b =>
      if timeDiff loc e < b.1 then some (timeDiff loc e, mkReading loc e)
      else some b

theorem alistFind_processStep (loc : Localizer)
    (acc : List (Int × Nat × TemperatureReading)) (e : YrNoTimeseriesEntry)
    (d : Int) :
    alistFind (processStep loc acc e) d =
      if (loc e.time).date = d then champStep loc (alistFind acc d) e
      else alistFind acc d := by
  unfold processStep
  by_cases hd : (loc e.time).date = d
  · subst hd
    rw [if_pos rfl]
    cases hfind : alistFind acc (loc e.time).date with
    | none =>
      dsimp only
      rw [hfind]
      dsimp only
      rw [alistFind_append_single acc _ _ hfind]
      simp [champStep, hfind]
    | some cur =>
      dsimp only
      rw [hfind]
      dsimp only
      simp only [champStep, hfind]
      by_cases hlt : timeDiff loc e < cur.1
      · rw [if_pos hlt, if_pos hlt, alistFind_alistSet_self]
      · rw [if_neg hlt, if_neg hlt, hfind]
  · rw [if_neg hd]
    cases hfind : alistFind acc (loc e.time).date with
    | none =>
      dsimp only
      rw [hfind]
      dsimp only
      rw [alistFind_append]
      cases hfd : alistFind acc d with
      | some v => rfl
      | none => simp [alistFind, hd]
    | some cur =>
      dsimp only
      rw [hfind]
      dsimp only
      by_cases hlt : timeDiff loc e < cur.1
      · rw [if_pos hlt,
          alistFind_alistSet_ne acc _ _ d (fun hh => hd hh.symm)]
      · rw [if_neg hlt]

theorem alistFind_foldl_process (loc : Localizer)
    (ts : List YrNoTimeseriesEntry) :
    ∀ (acc : List (Int × Nat × TemperatureReading)) (d : Int),
      alistFind (ts.foldl (processStep loc) acc) d =
        (ts.filter (fun e => decide ((loc e.time).date = d))).foldl
          (champStep loc) (alistFind acc d) := by
  induction ts with
  | nil =>
    intro acc d
    rfl
  | cons e rest ih =>
    intro acc d
    rw [List.foldl_cons, ih, List.filter_cons]
    by_cases hd : (loc e.time).date = d
    · rw [if_pos (by exact decide_eq_true hd), List.foldl_cons,
        alistFind_processStep, if_pos hd]
    · rw [if_neg (by simpa using hd), alistFind_processStep, if_neg hd]

/-- The optional-champion fold commutes with projecting a sample to its
stored `(time_diff, reading)` pair. -/
theorem foldl_entry_map (loc : Localizer) (l : List YrNoTimeseriesEntry) :
    ∀ o : Option YrNoTimeseriesEntry,
      (l.foldl (fun best e =>
        match best with
        | none => some e
        | some b =>
            if timeDiff loc e < timeDiff loc b then some e else some b) o).map
          (fun e => (timeDiff loc e, mkReading loc e)) =
        l.foldl (champStep loc)
          (o.map (fun e => (timeDiff loc e, mkReading loc e))) := by
  induction l with
  | nil =>
    intro o
    rfl
  | cons e rest ih =>
    intro o
    rw [List.foldl_cons, List.foldl_cons, ih]
    congr 1
    cases o with
    | none => rfl
    | some b =>
      by_cases hc : timeDiff loc e < timeDiff loc b
      · simp [champStep, hc]
      · simp [champStep, hc]

/-- The keys of `readings_by_date` stay duplicate free. -/
theorem keys_nodup_foldl_process (loc : Localizer)
    (ts : List YrNoTimeseriesEntry) :
    ∀ acc : List (Int × Nat × TemperatureReading),
      (acc.map Prod.fst).Nodup →
      ((ts.foldl (processStep loc) acc).map Prod.fst).Nodup := by
  induction ts with
  | nil =>
    intro acc h
    exact h
  | cons e rest ih =>
    intro acc h
    rw [List.foldl_cons]
    refine ih (processStep loc acc e) ?_
    unfold processStep
    cases hfind : alistFind acc ((loc e.time).date) with
    | none =>
      dsimp only
      rw [hfind]
      dsimp only
      rw [List.map_append]
      have hnot := (alistFind_eq_none_iff_not_mem_keys acc _).mp hfind
      simp [List.nodup_append, h, hnot]
    | some cur =>
      dsimp only
      rw [hfind]
      dsimp only
      by_cases hlt : timeDiff loc e < cur.1
      · rw [if_pos hlt,
          alistSet_keys_of_isSome acc _ _ (by rw [hfind]; rfl)]
        exact h
      · rw [if_neg hlt]
        exact h

/-- Every stored reading carries the date it is keyed under. -/
theorem dates_foldl_process (loc : Localizer)
    (ts : List YrNoTimeseriesEntry) :
    ∀ acc : List (Int × Nat × TemperatureReading),
      (∀ p ∈ acc, (p.2.2 : TemperatureReading).date = p.1) →
      ∀ p ∈ ts.foldl (processStep loc) acc, p.2.2.date = p.1 := by
  induction ts with
  | nil =>
    intro acc h
    exact h
  | cons e rest ih =>
    intro acc h
    rw [List.foldl_cons]
    refine ih (processStep loc acc e) ?_
    intro p hp
    unfold processStep at hp
    dsimp only at hp
    cases hfind : alistFind acc ((loc e.time).date) with
    | none =>
      rw [hfind] at hp
      dsimp only at hp
      rcases List.mem_append.mp hp with hold | hnew
      · exact h p hold
      · rcases List.mem_singleton.mp hnew with rfl
        rfl
    | some cur =>
      rw [hfind] at hp
      dsimp only at hp
      by_cases hlt : timeDiff loc e < cur.1
      · rw [if_pos hlt] at hp
        unfold alistSet at hp
        rw [if_pos (by rw [hfind]; rfl)] at hp
        rcases List.mem_map.mp hp with ⟨q, hq, hfq⟩
        by_cases hq1 : q.1 = (loc e.time).date
        · rw [if_pos hq1] at hfq
          rw [← hfq]
          rfl
        · rw [if_neg hq1] at hfq
          rw [← hfq]
          exact h q hq
      · rw [if_neg hlt] at hp
        exact h p hp

/-! ## Sortedness lemmas -/

/-- Strictly ascending by calendar date. -/
def StrictByDate (l : List TemperatureReading) : Prop :=
  l.Pairwise (fun a b => a.date < b.date)

theorem sortByDate_sorted (l : List TemperatureReading) :
    (sortByDate l).Pairwise (fun a b => a.date ≤ b.date) := by
  haveI : IsTotal TemperatureReading (fun a b => a.date ≤ b.date) :=
    ⟨fun a b => le_total a.date b.date⟩
  haveI : IsTrans TemperatureReading (fun a b => a.date ≤ b.date) :=
    ⟨fun a b c hab hbc => le_trans hab hbc⟩
  exact List.sorted_insertionSort _ l

theorem sortByDate_perm (l : List TemperatureReading) :
    (sortByDate l).Perm l :=
  List.perm_insertionSort _ l

/-- A weakly sorted list whose dates are duplicate free is strictly
sorted by date. -/
theorem strictByDate_of_sorted_nodup (l : List TemperatureReading)
    (hs : l.Pairwise (fun a b => a.date ≤ b.date))
    (hn : (l.map (fun r => r.date)).Nodup) : StrictByDate l := by
  have hne : l.Pairwise (fun a b => a.date ≠ b.date) :=
    List.pairwise_map.mp hn
  exact (hs.and hne).imp (fun h => lt_of_le_of_ne h.1 h.2)

theorem sortByDate_strict (l : List TemperatureReading)
    (hn : (l.map (fun r => r.date)).Nodup) : StrictByDate (sortByDate l) := by
  refine strictByDate_of_sorted_nodup _ (sortByDate_sorted l) ?_
  exact (((sortByDate_perm l).map (fun r => r.date)).nodup_iff).mpr hn

/-- The dates of the champions of `readings_by_date` are exactly its
keys, hence duplicate free. -/
theorem readings_dates_nodup (loc : Localizer)
    (ts : List YrNoTimeseriesEntry) :
    (((readings_by_date loc ts).map (fun p => p.2.2)).map
      (fun r => r.date)).Nodup := by
  rw [List.map_map]
  have hdates := dates_foldl_process loc ts [] (by intro p hp; cases hp)
  have heq : (readings_by_date loc ts).map ((fun r => r.date) ∘ fun p => p.2.2)
      = (readings_by_date loc ts).map Prod.fst := by
    refine List.map_congr_left ?_
    intro p hp
    exact hdates p hp
  rw [heq]
  exact keys_nodup_foldl_process loc ts [] (by simp)

theorem process_timeseries_dates_nodup (loc : Localizer)
    (ts : List YrNoTimeseriesEntry) :
    ((process_timeseries loc ts).map (fun r => r.date)).Nodup := by
  unfold process_timeseries
  exact (((sortByDate_perm _).map (fun r => r.date)).nodup_iff).mpr
    (readings_dates_nodup loc ts)

theorem process_timeseries_strict (loc : Localizer)
    (ts : List YrNoTimeseriesEntry) :
    StrictByDate (process_timeseries loc ts) := by
  unfold process_timeseries
  exact sortByDate_strict _ (readings_dates_nodup loc ts)

/-- `construct` only sorts the readings and recomputes the count. -/
theorem construct_forecasts (location : Location)
    (forecasts : List TemperatureReading) (days_returned : Nat)
    (cached : Bool) (stale : Bool) (cached_at : Option Int)
    (generated_at : Int) :
    (ForecastResponse.construct location forecasts days_returned cached
      stale cached_at generated_at).forecasts = sortByDate forecasts := by
  unfold ForecastResponse.construct ForecastResponse.validate_days_count
  by_cases h : (sortByDate forecasts).isEmpty
  · simp [h]
  · simp [h]

/-- Unit conversion rebuilds every reading but keeps its date. -/
theorem convert_units_strict (r : ForecastResponse) (u : TemperatureUnit)
    (h : StrictByDate r.forecasts) :
    StrictByDate (WeatherService.convert_units r u).forecasts := by
  unfold WeatherService.convert_units
  exact List.pairwise_map.mpr h

/-- Post-processing preserves strict date order. -/
theorem postProcess_strict (u : TemperatureUnit) (d : Option Nat)
    (r : ForecastResponse) (h : StrictByDate r.forecasts) :
    StrictByDate (WeatherService.postProcess u d r).forecasts := by
  unfold WeatherService.postProcess
  have h1 : StrictByDate
      (if u = TemperatureUnit.celsius then r
       else WeatherService.convert_units r u).forecasts := by
    by_cases hu : u = TemperatureUnit.celsius
    · rw [if_pos hu]
      exact h
    · rw [if_neg hu]
      exact convert_units_strict r u h
  cases d with
  | none => exact h1
  | some dd =>
    dsimp only
    by_cases hd : dd = 0
    · rw [if_pos hd]
      exact h1
    · rw [if_neg hd]
      unfold WeatherService.filter_days
      exact List.Pairwise.sublist (List.take_sublist dd _) h1

/-- Post-processing never touches the `cached`, `stale` and `cached_at`
stamps. -/
theorem postProcess_flags (u : TemperatureUnit) (d : Option Nat)
    (r : ForecastResponse) :
    (WeatherService.postProcess u d r).cached = r.cached ∧
    (WeatherService.postProcess u d r).stale = r.stale ∧
    (WeatherService.postProcess u d r).cached_at = r.cached_at := by
  unfold WeatherService.postProcess WeatherService.convert_units
    WeatherService.filter_days
  by_cases hu : u = TemperatureUnit.celsius <;>
    cases d with
    | none => simp [hu]
    | some dd => by_cases hd : dd = 0 <;> simp [hu, hd]

/-! ## Cache content invariant -/

/-- Every response held in the live table or the stale dict has strictly
date sorted readings. -/
def SortedCache (m : CacheManager) : Prop :=
  (∀ it ∈ m.cache.items, StrictByDate it.2.1.data.forecasts) ∧
  ∀ p ∈ m.stale_cache, StrictByDate p.2.data.forecasts

theorem findItem_prop {P : CacheEntry → Prop}
    (l : List (List Char × CacheEntry × Int)) (k : List Char)
    (h : ∀ it ∈ l, P it.2.1) (q : CacheEntry × Int)
    (hq : TTLCache.findItem l k = some q) : P q.1 := by
  induction l with
  | nil => exact Option.noConfusion hq
  | cons it rest ih =>
    unfold TTLCache.findItem at hq
    by_cases hk : it.1 = k
    · rw [if_pos hk] at hq
      rw [← Option.some_inj.mp hq]
      exact h it (List.mem_cons_self it rest)
    · rw [if_neg hk] at hq
      exact ih (fun q hql => h q (List.mem_cons_of_mem it hql)) hq

theorem lookup_prop {P : CacheEntry → Prop} (c : TTLCache) (now : Int)
    (k : List Char) (h : ∀ it ∈ c.items, P it.2.1) (e : CacheEntry)
    (he : c.lookup now k = some e) : P e := by
  unfold TTLCache.lookup at he
  cases hf : TTLCache.findItem c.items k with
  | none =>
    rw [hf] at he
    exact Option.noConfusion he
  | some q =>
    rw [hf] at he
    dsimp only at he
    by_cases ht : now < q.2
    · rw [if_pos ht] at he
      rw [← Option.some_inj.mp he]
      exact findItem_prop c.items k h q hf
    · rw [if_neg ht] at he
      exact Option.noConfusion he

theorem alistFind_prop {α β : Type} [DecidableEq α] {P : β → Prop}
    (l : List (α × β)) (k : α) (h : ∀ p ∈ l, P p.2) (v : β)
    (hv : alistFind l k = some v) : P v := by
  induction l with
  | nil => exact Option.noConfusion hv
  | cons p rest ih =>
    unfold alistFind at hv
    by_cases hk : p.1 = k
    · rw [if_pos hk] at hv
      rw [← Option.some_inj.mp hv]
      exact h p (List.mem_cons_self p rest)
    · rw [if_neg hk] at hv
      exact ih (fun q hql => h q (List.mem_cons_of_mem p hql)) hv

/-! ## Rounding and key-format lemmas -/

/-- Rounding a value that is already a 4-decimal multiple is the
identity on the scaled integer. -/
theorem round4_quant4 (z : Int) : round4 (quant4 z) = z := by
  unfold round4 quant4
  dsimp only
  have hmul : mkRat z 10000 * 10000 = (z : Rat) := by
    rw [Rat.mkRat_eq_div]
    push_cast
    field_simp
  have hfl : Rat.floor ((z : Rat)) = z := by
    rw [show Rat.floor ((z : Rat)) = ⌊(z : Rat)⌋ from rfl, Int.floor_intCast]
  have hhalf : (0 : Rat) < mkRat 1 2 := by
    rw [Rat.mkRat_eq_div]
    norm_num
  rw [hmul, hfl, sub_self, if_pos hhalf]

theorem natDigitsAux_ne_nil :
    ∀ fuel n, n < fuel → natDigitsAux fuel n ≠ [] := by
  intro fuel
  induction fuel with
  | zero =>
    intro n h
    omega
  | succ f ih =>
    intro n h
    simp only [natDigitsAux]
    by_cases h10 : n < 10
    · rw [if_pos h10]
      simp
    · rw [if_neg h10]
      simp

theorem natDigits_ne_nil (n : Nat) : natDigits n ≠ [] :=
  natDigitsAux_ne_nil (n + 1) n (by omega)

theorem natDigitsAux_all_digit :
    ∀ fuel n, n < fuel →
      ∀ c ∈ natDigitsAux fuel n, ∃ k, k < 10 ∧ c = Nat.digitChar k := by
  intro fuel
  induction fuel with
  | zero =>
    intro n h
    omega
  | succ f ih =>
    intro n h c hc
    simp only [natDigitsAux] at hc
    by_cases h10 : n < 10
    · rw [if_pos h10] at hc
      rcases List.mem_singleton.mp hc with rfl
      exact ⟨n, h10, rfl⟩
    · rw [if_neg h10] at hc
      rcases List.mem_append.mp hc with hl | hr
      · have hdiv : n / 10 < n := Nat.div_lt_self (by omega) (by omega)
        exact ih (n / 10) (by omega) c hl
      · rcases List.mem_singleton.mp hr with rfl
        exact ⟨n % 10, Nat.mod_lt n (by omega), rfl⟩

theorem natDigits_all_digit (n : Nat) :
    ∀ c ∈ natDigits n, ∃ k, k < 10 ∧ c = Nat.digitChar k :=
  natDigitsAux_all_digit (n + 1) n (by omega)

/-- The value of `Python int(c)` on a decimal digit character. -/
theorem digitChar_val (k : Nat) (h : k < 10) :
    (Nat.digitChar k).toNat - 48 = k := by
  interval_cases k <;> decide

theorem digitChar_ne_special (k : Nat) (h : k < 10) :
    Nat.digitChar k ≠ ':' ∧ Nat.digitChar k ≠ '-' ∧
      Nat.digitChar k ≠ '.' := by
  interval_cases k <;> exact ⟨by decide, by decide, by decide⟩

/-- `int(s)` on a digit string: fold the digits into a number. -/
def charsToNat (cs : List Char) : Nat :=
  cs.foldl (fun a c => a * 10 + (c.toNat - 48)) 0

theorem foldl_natDigitsAux :
    ∀ fuel n, n < fuel → ∀ a : Nat,
      (natDigitsAux fuel n).foldl (fun a c => a * 10 + (c.toNat - 48)) a =
        a * 10 ^ (natDigitsAux fuel n).length + n := by
  intro fuel
  induction fuel with
  | zero =>
    intro n h
    omega
  | succ f ih =>
    intro n h a
    simp only [natDigitsAux]
    by_cases h10 : n < 10
    · rw [if_pos h10]
      simp [digitChar_val n h10]
    · rw [if_neg h10]
      have hdiv : n / 10 < n := Nat.div_lt_self (by omega) (by omega)
      rw [List.foldl_append, ih (n / 10) (by omega)]
      simp only [List.foldl_cons, List.foldl_nil, List.length_append,
        List.length_singleton]
      rw [digitChar_val (n % 10) (Nat.mod_lt n (by omega))]
      have hdm : 10 * (n / 10) + n % 10 = n := by omega
      calc (a * 10 ^ (natDigitsAux f (n / 10)).length + n / 10) * 10 + n % 10
          = a * 10 ^ ((natDigitsAux f (n / 10)).length + 1) +
            (10 * (n / 10) + n % 10) := by ring
        _ = a * 10 ^ ((natDigitsAux f (n / 10)).length + 1) + n := by
            rw [hdm]

theorem foldl_natDigits (n : Nat) :
    ∀ a : Nat, (natDigits n).foldl (fun a c => a * 10 + (c.toNat - 48)) a =
      a * 10 ^ (natDigits n).length + n :=
  foldl_natDigitsAux (n + 1) n (by omega)

theorem charsToNat_natDigits (n : Nat) : charsToNat (natDigits n) = n := by
  unfold charsToNat
  rw [foldl_natDigits n 0]
  simp

theorem pad4_all_digit (m : Nat) (h : m < 10000) :
    ∀ c ∈ pad4 m, ∃ k, k < 10 ∧ c = Nat.digitChar k := by
  intro c hc
  unfold pad4 at hc
  simp only [List.mem_cons, List.not_mem_nil, or_false] at hc
  rcases hc with rfl | rfl | rfl | rfl
  · exact ⟨m / 1000, by omega, rfl⟩
  · exact ⟨m / 100 % 10, Nat.mod_lt _ (by omega), rfl⟩
  · exact ⟨m / 10 % 10, Nat.mod_lt _ (by omega), rfl⟩
  · exact ⟨m % 10, Nat.mod_lt _ (by omega), rfl⟩

theorem foldl_pad4 (m : Nat) (h : m < 10000) (a : Nat) :
    (pad4 m).foldl (fun a c => a * 10 + (c.toNat - 48)) a =
      a * 10000 + m := by
  unfold pad4
  simp only [List.foldl_cons, List.foldl_nil]
  rw [digitChar_val (m / 1000) (by omega),
    digitChar_val (m / 100 % 10) (Nat.mod_lt _ (by omega)),
    digitChar_val (m / 10 % 10) (Nat.mod_lt _ (by omega)),
    digitChar_val (m % 10) (Nat.mod_lt _ (by omega))]
  omega

/-- Reading a fixed-4-decimal rendering back: drop the sign, erase the
dot, fold the digits. -/
def dec4 (cs : List Char) : Int :=
  if cs.head? = some '-' then
    -(charsToNat ((cs.drop 1).filter (fun c => decide (c ≠ '.'))) : Int)
  else (charsToNat (cs.filter (fun c => decide (c ≠ '.'))) : Int)

theorem filter_dot_body (a b : Nat) (hb : b < 10000) :
    (natDigits a ++ '.' :: pad4 b).filter (fun c => decide (c ≠ '.')) =
      natDigits a ++ pad4 b := by
  rw [List.filter_append]
  have h1 : (natDigits a).filter (fun c => decide (c ≠ '.')) = natDigits a := by
    refine List.filter_eq_self.mpr ?_
    intro c hc
    rcases natDigits_all_digit a c hc with ⟨k, hk, rfl⟩
    simpa using (digitChar_ne_special k hk).2.2
  have h2 : (('.' :: pad4 b)).filter (fun c => decide (c ≠ '.')) = pad4 b := by
    have hstep : (('.' :: pad4 b)).filter (fun c => decide (c ≠ '.')) =
        (pad4 b).filter (fun c => decide (c ≠ '.')) := by
      simp
    rw [hstep]
    refine List.filter_eq_self.mpr ?_
    intro c hc
    rcases pad4_all_digit b hb c hc with ⟨k, hk, rfl⟩
    simpa using (digitChar_ne_special k hk).2.2
  rw [h1, h2]

theorem charsToNat_body (a b : Nat) (hb : b < 10000) :
    charsToNat (natDigits a ++ pad4 b) = a * 10000 + b := by
  unfold charsToNat
  rw [List.foldl_append, foldl_natDigits a 0, foldl_pad4 b hb]
  simp

theorem natDigits_head_ne_minus (n : Nat) :
    (natDigits n).head? ≠ some '-' := by
  cases hd : natDigits n with
  | nil => exact absurd hd (natDigits_ne_nil n)
  | cons c rest =>
    have hc : c ∈ natDigits n := by rw [hd]; exact List.mem_cons_self c rest
    rcases natDigits_all_digit n c hc with ⟨k, hk, rfl⟩
    simp only [List.head?_cons]
    intro hcontra
    exact (digitChar_ne_special k hk).2.1 (Option.some_inj.mp hcontra)

/-- The fixed-4-decimal rendering is injective: `dec4` inverts it. -/
theorem dec4_fmt4 (z : Int) : dec4 (fmt4 z) = z := by
  unfold fmt4 dec4
  have hb : z.natAbs % 10000 < 10000 := Nat.mod_lt _ (by omega)
  by_cases hz : z < 0
  · rw [if_pos hz]
    rw [if_pos (by
      rw [List.head?_append_of_ne_nil _ (by simp)]
      rfl)]
    rw [show (List.drop 1 (['-'] ++ natDigits (z.natAbs / 10000) ++
        '.' :: pad4 (z.natAbs % 10000))) =
      natDigits (z.natAbs / 10000) ++ '.' :: pad4 (z.natAbs % 10000) from rfl]
    rw [filter_dot_body _ _ hb, charsToNat_body _ _ hb]
    omega
  · rw [if_neg hz]
    simp only [List.nil_append]
    rw [if_neg (by
      rw [List.head?_append_of_ne_nil _ (natDigits_ne_nil _)]
      exact natDigits_head_ne_minus _)]
    rw [filter_dot_body _ _ hb, charsToNat_body _ _ hb]
    omega

/-- `fmt4` is injective. -/
theorem fmt4_inj (z1 z2 : Int) (h : fmt4 z1 = fmt4 z2) : z1 = z2 := by
  have := congrArg dec4 h
  rwa [dec4_fmt4, dec4_fmt4] at this

theorem fmt4_no_colon (z : Int) : ∀ c ∈ fmt4 z, c ≠ ':' := by
  intro c hc
  unfold fmt4 at hc
  have hb : z.natAbs % 10000 < 10000 := Nat.mod_lt _ (by omega)
  rcases List.mem_append.mp hc with hsd | hrest
  · rcases List.mem_append.mp hsd with hsign | hd
    · by_cases hz : z < 0
      · rw [if_pos hz] at hsign
        rcases List.mem_singleton.mp hsign with rfl
        decide
      · rw [if_neg hz] at hsign
        cases hsign
    · rcases natDigits_all_digit _ c hd with ⟨k, hk, rfl⟩
      exact (digitChar_ne_special k hk).1
  · rcases List.mem_cons.mp hrest with rfl | hpad
    · decide
    · rcases pad4_all_digit _ hb c hpad with ⟨k, hk, rfl⟩
      exact (digitChar_ne_special k hk).1

/-- Splitting an unambiguous `":"`-separated pair. -/
theorem append_colon_inj (a : List Char) :
    ∀ (a' b b' : List Char), (∀ c ∈ a, c ≠ ':') → (∀ c ∈ a', c ≠ ':') →
      a ++ ':' :: b = a' ++ ':' :: b' → a = a' ∧ b = b' := by
  induction a with
  | nil =>
    intro a' b b' _ ha' h
    cases a' with
    | nil =>
      simp only [List.nil_append] at h
      exact ⟨rfl, (List.cons.injEq _ _ _ _).mp h |>.2⟩
    | cons y ys =>
      simp only [List.nil_append, List.cons_append] at h
      have hy : y = ':' := ((List.cons.injEq _ _ _ _).mp h).1.symm
      exact absurd hy (ha' y (List.mem_cons_self y ys))
  | cons x xs ih =>
    intro a' b b' ha ha' h
    cases a' with
    | nil =>
      simp only [List.cons_append, List.nil_append] at h
      have hx : x = ':' := ((List.cons.injEq _ _ _ _).mp h).1
      exact absurd hx (ha x (List.mem_cons_self x xs))
    | cons y ys =>
      simp only [List.cons_append] at h
      obtain ⟨hxy, htail⟩ := (List.cons.injEq _ _ _ _).mp h
      obtain ⟨h1, h2⟩ := ih ys b b'
        (fun c hc => ha c (List.mem_cons_of_mem x hc))
        (fun c hc => ha' c (List.mem_cons_of_mem y hc)) htail
      exact ⟨by rw [hxy, h1], h2⟩

/-- The cache key determines, and is determined by, the pair of rounded
coordinates. -/
theorem generate_key_inj (lat lon lat' lon' : Rat) :
    generate_key lat lon = generate_key lat' lon' ↔
      (round4 lat = round4 lat' ∧ round4 lon = round4 lon') := by
  constructor
  · intro h
    unfold generate_key at h
    rw [List.append_assoc, List.append_assoc] at h
    have hbody := List.append_cancel_left h
    obtain ⟨h1, h2⟩ := append_colon_inj (fmt4 (round4 lat))
      (fmt4 (round4 lat')) (fmt4 (round4 lon)) (fmt4 (round4 lon'))
      (fmt4_no_colon _) (fmt4_no_colon _) hbody
    exact ⟨fmt4_inj _ _ h1, fmt4_inj _ _ h2⟩
  · rintro ⟨h1, h2⟩
    unfold generate_key
    rw [h1, h2]

/-! ## Claims -/

/-- The fetch environment used to exercise the cache-mutation bug: one
upstream sample (UTC timestamp 176400, air temperature 0 °C), the
timezone fixed to UTC, wall clock at 0. -/
def c1Env : FetchEnv :=
  ⟨Except.ok [⟨176400, ⟨⟨⟨0, none, none⟩⟩⟩⟩],
    fun t => ⟨t / 86400, t % 86400⟩, 0⟩

/-- Belgrade, already at 4 decimals. -/
def c1Lat : Rat := mkRat 448125 10000

/-- Belgrade longitude, already at 4 decimals. -/
def c1Lon : Rat := mkRat 204612 10000

/-- The cache state after one Fahrenheit request on an empty cache. -/
def c1State1 : CacheManager :=
  (WeatherService.get_forecast c1Env CacheManager.init c1Lat c1Lon none
    none TemperatureUnit.fahrenheit).2

/-- C1.  The claim says the stored cache entry is never mutated — unit
conversion applies only to copies, so the stored entry always keeps its
original Celsius readings.  The code violates this: after a fresh fetch
the response object is stored in the cache (line 149) and *then*
converted in place (lines 152-153, `_convert_units` assigns
`response.forecasts`), so the stored entry holds Fahrenheit data; a
subsequent request asking for Celsius is served the Fahrenheit readings
from the cache.  This theorem evaluates the embedded code at that
failing input: the upstream reported 0 °C, yet the cache slot stores a
reading of 32 °F, and a second call requesting Celsius returns 32. -/
theorem claim_C1_stored_entry_mutated :
    ((c1State1.cache.lookup 0 (generate_key c1Lat c1Lon)).map
      (fun e => e.data.forecasts.map (fun rd => (rd.temperature, rd.unit)))
      = some [(32, TemperatureUnit.fahrenheit)]) ∧
    ((match (WeatherService.get_forecast c1Env c1State1 c1Lat c1Lon none
        none TemperatureUnit.celsius).1 with
      | Except.ok r => some (r.forecasts.map
          (fun rd => (rd.temperature, rd.unit)))
      | Except.error _ => none)
      = some [(32, TemperatureUnit.fahrenheit)]) := by
  constructor
  · decide
  · decide

/-- C2.  The daily-sampling loop keeps exactly one champion per local
calendar date (the keys of `readings_by_date` are duplicate free), and
the champion stored for a date is exactly the left fold over the
samples of that date, in input order, in which a later sample replaces
the current champion iff its distance to the 14:00 target is strictly
smaller — equal distance keeps the first-seen sample
(`specChampion`, transcribed from the specification). -/
theorem claim_C2_daily_champion (loc : Localizer)
    (ts : List YrNoTimeseriesEntry) :
    ((readings_by_date loc ts).map Prod.fst).Nodup ∧
    ∀ d, alistFind (readings_by_date loc ts) d =
      (specChampion loc ts d).map
        (fun e => (timeDiff loc e, mkReading loc e)) := by
  constructor
  · exact keys_nodup_foldl_process loc ts [] (by simp)
  · intro d
    unfold readings_by_date specChampion
    rw [alistFind_foldl_process loc ts [] d]
    exact (foldl_entry_map loc _ none).symm

/-- An arbitrary small response used as cached payload. -/
def c4Resp : ForecastResponse := ⟨⟨0, 0, none⟩, [], 0, false, false, none, 0⟩

/-- A one-character cache key. -/
def c4Key : List Char := ['k']

/-- The cache right after storing under `c4Key` at time 0. -/
def c4S1 : CacheSys := CacheSys.init.step (CacheOp.set c4Key c4Resp)

/-- The same cache after the TTL (3600 s) has elapsed. -/
def c4S2 : CacheSys := c4S1.step (CacheOp.tick 3601)

/-- C4 counterexample.  The claim says that after *any* history in
which a value was once stored live and is no longer live, `getStale`
still returns a record.  History: `set` at time 0 (the value is live),
then the TTL elapses with no further `set`.  The live entry is gone,
and the stale slot is empty: demotion to the stale slot happens only
inside `set`, and only when the old entry is still live. -/
theorem claim_C4_counterexample :
    (c4S1.mgr.cache.lookup c4S1.now c4Key).isSome = true ∧
    c4S2.mgr.cache.lookup c4S2.now c4Key = none ∧
    c4S2.mgr.get_stale c4Key = none := by
  refine ⟨by decide, by decide, by decide⟩

/-- C4 (amended).  `getStale key` does return a record after any
history in which some `set key` was performed *while a live entry for
that key was present* (replacement of a still-live entry); the demoted
entry then survives every later operation.  An entry that merely
expires without such a replacement is not retained (see the
counterexample). -/
theorem claim_C4_stale_after_replacement (s : CacheSys) (k : List Char)
    (d : ForecastResponse) (post : List CacheOp)
    (hlive : (s.mgr.cache.lookup s.now k).isSome) :
    (((s.step (CacheOp.set k d)).run post).mgr.get_stale k).isSome := by
  refine stale_isSome_run _ post k ?_
  unfold CacheSys.step
  dsimp only
  unfold CacheManager.get_stale CacheManager.set
  dsimp only
  cases hl : s.mgr.cache.lookup s.now k with
  | none =>
    rw [hl] at hlive
    exact absurd hlive (by simp)
  | some old =>
    dsimp only
    rw [alistFind_alistSet_self]
    rfl

/-- Witness for the amended C4: replace the live entry of `c4S1`, let
the TTL elapse, and the stale slot still answers. -/
theorem claim_C4_witness :
    (((c4S1.step (CacheOp.set c4Key c4Resp)).run
      [CacheOp.tick 3601]).mgr.get_stale c4Key).isSome := by
  exact claim_C4_stale_after_replacement c4S1 c4Key c4Resp
    [CacheOp.tick 3601] (by decide)

/-- C6 counterexample.  The claim says `checkAvailability` never
throws: transport errors are caught internally and reported as `false`.
The method body has no `try`/`except`, so a transport error raised by
the probe propagates to the caller instead of producing `False`. -/
theorem claim_C6_counterexample :
    YrNoClient.check_availability (ProbeOutcome.transportError ['t']) =
      Except.error ['t'] ∧
    ¬ ∃ b, YrNoClient.check_availability
      (ProbeOutcome.transportError ['t']) = Except.ok b := by
  refine ⟨rfl, ?_⟩
  rintro ⟨b, hb⟩
  exact Except.noConfusion hb

/-- C6 (amended).  `check_availability` reports `status == 200` for
every received response — in particular `false` for every non-2xx (and
even non-200) status — but it does not catch transport errors: those
propagate as exceptions.  The surrounding `HealthService._check_yrno`
catches them and reports `false`, so the health check as a whole never
throws. -/
theorem claim_C6_availability (probe : ProbeOutcome) :
    (∀ s, probe = ProbeOutcome.response s →
      YrNoClient.check_availability probe = Except.ok (s == 200)) ∧
    (∀ s, probe = ProbeOutcome.response s → s ≠ 200 →
      YrNoClient.check_availability probe = Except.ok false) ∧
    (∀ m, probe = ProbeOutcome.transportError m →
      YrNoClient.check_availability probe = Except.error m ∧
      HealthService.check_yrno probe = false) := by
  refine ⟨?_, ?_, ?_⟩
  · rintro s rfl
    rfl
  · rintro s rfl hs
    unfold YrNoClient.check_availability
    dsimp only
    rw [beq_eq_false_iff_ne.mpr hs]
  · rintro m rfl
    exact ⟨rfl, rfl⟩

/-- Witness for the amended C6: a 503 probe response yields `ok false`,
and a transport error yields an exception that the health service maps
to `false`. -/
theorem claim_C6_witness :
    YrNoClient.check_availability (ProbeOutcome.response 503) =
      Except.ok false ∧
    HealthService.check_yrno (ProbeOutcome.transportError ['t']) = false := by
  constructor
  · exact (claim_C6_availability (ProbeOutcome.response 503)).2.1 503 rfl
      (by decide)
  · exact ((claim_C6_availability (ProbeOutcome.transportError ['t'])).2.2
      ['t'] rfl).2

/-- C7.  Coordinates are rounded to exactly 4 decimal digits before any
cache or network activity: the whole call depends only on the rounded
values (first conjunct).  The cache-key function is deterministic (it
is a function) and collision free: two coordinate pairs get the same
key iff their 4-decimal roundings agree (second conjunct).  The
specification's example rounds as stated (last conjuncts):
`44.81254321 ↦ 44.8125`, `20.46123456 ↦ 20.4612`. -/
theorem claim_C7_rounding_and_key (env : FetchEnv) (mgr : CacheManager)
    (nm : Option (List Char)) (days : Option Nat) (unit : TemperatureUnit)
    (lat lon lat' lon' : Rat) :
    WeatherService.get_forecast env mgr lat lon nm days unit =
      WeatherService.get_forecast env mgr (quant4 (round4 lat))
        (quant4 (round4 lon)) nm days unit ∧
    (generate_key lat lon = generate_key lat' lon' ↔
      (round4 lat = round4 lat' ∧ round4 lon = round4 lon')) ∧
    round4 (mkRat 4481254321 100000000) = 448125 ∧
    round4 (mkRat 2046123456 100000000) = 204612 := by
  refine ⟨?_, generate_key_inj lat lon lat' lon', by decide, by decide⟩
  simp only [WeatherService.get_forecast, round4_quant4]

/-- C9.  Once a stale entry exists for a key, no cache operation —
`get`, `getStale`, `set`, `stats`, or the passage of time — ever
removes it: after any further operation sequence `getStale` still
returns a record for that key (`set` can only overwrite the slot with a
newer demoted entry). -/
theorem claim_C9_stale_never_removed (s : CacheSys) (ops : List CacheOp)
    (k : List Char) (h : (s.mgr.get_stale k).isSome) :
    (((s.run ops).mgr).get_stale k).isSome :=
  stale_isSome_run s ops k h

/-- A cache state holding one stale entry under key `s`. -/
def c9S0 : CacheSys :=
  ⟨⟨⟨1000, 3600, []⟩, [(['s'], ⟨c4Resp, 0, 0⟩)], 0, 0⟩, 0⟩

/-- Witness for C9: the stale entry survives a `get`, a `set` under
another key, a TTL expiry, and a stats read. -/
theorem claim_C9_witness :
    (((c9S0.run [CacheOp.get ['s'], CacheOp.set ['x'] c4Resp,
      CacheOp.tick 7200, CacheOp.stats]).mgr).get_stale ['s']).isSome := by
  exact claim_C9_stale_never_removed c9S0
    [CacheOp.get ['s'], CacheOp.set ['x'] c4Resp, CacheOp.tick 7200,
      CacheOp.stats] ['s'] (by decide)

/-- C10.  The `ForecastResponse` model validator forces `days_returned`
to the length of the (sorted) forecasts list whenever that list is
non-empty, silently overriding the caller-supplied value; when the list
is empty (Python falsy), the caller-supplied value is kept. -/
theorem claim_C10_days_returned (location : Location)
    (forecasts : List TemperatureReading) (days_returned : Nat)
    (cached stale : Bool) (cached_at : Option Int) (generated_at : Int) :
    (ForecastResponse.construct location forecasts days_returned cached
      stale cached_at generated_at).days_returned =
      if forecasts.isEmpty then days_returned else forecasts.length := by
  unfold ForecastResponse.construct ForecastResponse.validate_days_count
  have hlen : (sortByDate forecasts).length = forecasts.length :=
    (sortByDate_perm forecasts).length_eq
  by_cases h : forecasts.isEmpty
  · have hfs : forecasts = [] := List.isEmpty_iff.mp h
    subst hfs
    rfl
  · have hne : ¬ ((sortByDate forecasts).isEmpty = true) := by
      intro hcontra
      have hnil : sortByDate forecasts = [] := List.isEmpty_iff.mp hcontra
      have : forecasts.length = 0 := by
        rw [← hlen, hnil]
        rfl
      exact h (List.isEmpty_iff.mpr (List.length_eq_zero.mp this))
    rw [if_neg h]
    dsimp only
    rw [if_neg hne]
    exact hlen

/-- C8.  Thundering herd: in any complete interleaving of `n`
overlapping requests (every request finished, starting from the
all-uncached initial state), *exactly one* upstream fetch was issued
for each requested key, and none for other keys — the per-key lock plus
the re-probe under the lock collapse concurrent requests.  Moreover
requests for different coordinates never block each other: a request
can always take its next step as soon as the lock *of its own key* is
free, whatever the state of other keys' locks (second conjunct). -/
theorem claim_C8_thundering_herd {n : Nat} {K : Type} [DecidableEq K]
    (key : Fin n → K) (s : Herd.HState n K) (hreach : Herd.Reach key s)
    (hdone : ∀ i, s.pc i = Herd.PC.done) :
    (∀ k, s.fetches k = if ∃ i, key i = k then 1 else 0) ∧
    (∀ (t : Herd.HState n K) (i : Fin n), t.pc i ≠ Herd.PC.done →
      (t.pc i = Herd.PC.acquire → t.lock (key i) = none) →
      ∃ t', Herd.Step key t t') :=
  ⟨fun k => Herd.fetches_at_done hreach hdone k,
    fun t i h1 h2 => Herd.progress key t i h1 h2⟩

/-- Witness for C8: an explicit complete schedule of one request
(probe miss, acquire, re-probe miss, fetch, store) reaches an all-done
state with exactly one fetch. -/
theorem claim_C8_witness :
    ∃ s : Herd.HState 1 Nat,
      Herd.Reach (fun _ => 0) s ∧ (∀ i, s.pc i = Herd.PC.done) ∧
        s.fetches 0 = 1 := by
  have hreach := Relation.ReflTransGen.head
    (@Herd.Step.probeMiss 1 Nat _ (fun _ => 0) (Herd.HState.init 1 Nat) 0
      rfl rfl)
    (Relation.ReflTransGen.head (Herd.Step.acquire _ 0 rfl rfl)
      (Relation.ReflTransGen.head (Herd.Step.recheckMiss _ 0 rfl rfl)
        (Relation.ReflTransGen.head (Herd.Step.fetchDo _ 0 rfl)
          (Relation.ReflTransGen.head (Herd.Step.storeDo _ 0 rfl)
            Relation.ReflTransGen.refl))))
  refine ⟨_, hreach, by decide, ?_⟩
  obtain ⟨hfet, -⟩ := claim_C8_thundering_herd (fun _ => (0 : Nat)) _
    hreach (by decide)
  have h0 := hfet 0
  rw [if_pos ⟨0, rfl⟩] at h0
  exact h0

/-- A stale entry's data stamped for serving, exactly as at
weather_service.py lines 110-113: `cached=True, stale=True`,
`cached_at` from the stale entry's creation time. -/
def staleStamped (s0 : CacheEntry) : ForecastResponse :=
  { s0.data with
      cached := true
      stale := true
      cached_at := some s0.created_at }

/-- C3.  When the upstream fetch fails and the live cache has no entry
for the key: if the stale slot holds an entry, the call returns that
entry's data stamped `cached=true, stale=true` with `cachedAt` taken
from the stale entry's creation time (then unit-converted/day-limited);
if the stale slot is empty, the `yr.no API unavailable` error is
propagated to the caller. -/
theorem claim_C3_stale_fallback (env : FetchEnv) (mgr : CacheManager)
    (lat lon : Rat) (nm : Option (List Char)) (days : Option Nat)
    (unit : TemperatureUnit) (e : List Char)
    (hfetch : env.fetch = Except.error e)
    (hmiss : mgr.cache.lookup env.now
      (generate_key (quant4 (round4 lat)) (quant4 (round4 lon))) = none) :
    (∀ s0, mgr.get_stale
        (generate_key (quant4 (round4 lat)) (quant4 (round4 lon))) =
          some s0 →
      (WeatherService.get_forecast env mgr lat lon nm days unit).1 =
        Except.ok (WeatherService.postProcess unit days (staleStamped s0)) ∧
      (WeatherService.postProcess unit days (staleStamped s0)).cached =
        true ∧
      (WeatherService.postProcess unit days (staleStamped s0)).stale =
        true ∧
      (WeatherService.postProcess unit days (staleStamped s0)).cached_at =
        some s0.created_at) ∧
    (mgr.get_stale
        (generate_key (quant4 (round4 lat)) (quant4 (round4 lon))) =
          none →
      (WeatherService.get_forecast env mgr lat lon nm days unit).1 =
        Except.error (unavailableMsg ++ e)) := by
  constructor
  · intro s0 hstale
    unfold CacheManager.get_stale at hstale
    refine ⟨?_, (postProcess_flags unit days _).1,
      (postProcess_flags unit days _).2.1,
      (postProcess_flags unit days _).2.2⟩
    unfold WeatherService.get_forecast CacheManager.get
      CacheManager.get_stale
    dsimp only
    rw [hmiss]
    dsimp only
    rw [hmiss]
    dsimp only
    rw [hfetch]
    dsimp only
    rw [hstale]
    dsimp only
    rfl
  · intro hstale
    unfold CacheManager.get_stale at hstale
    unfold WeatherService.get_forecast CacheManager.get
      CacheManager.get_stale
    dsimp only
    rw [hmiss]
    dsimp only
    rw [hmiss]
    dsimp only
    rw [hfetch]
    dsimp only
    rw [hstale]

/-- The environment of the C3 witness: the upstream fetch fails. -/
def c3Env : FetchEnv := ⟨Except.error ['x'], fun _ => ⟨0, 0⟩, 0⟩

/-- The payload of the C3 witness's stale entry. -/
def c3Resp : ForecastResponse := ⟨⟨0, 0, none⟩, [], 0, false, false, none, 0⟩

/-- Latitude of the C3 witness, already at 4 decimals. -/
def c3Lat : Rat := mkRat 448125 10000

/-- Longitude of the C3 witness, already at 4 decimals. -/
def c3Lon : Rat := mkRat 204612 10000

/-- Cache state of the C3 witness: empty live table, one stale entry
created at time 5 under the coordinate key. -/
def c3Mgr : CacheManager :=
  ⟨⟨1000, 3600, []⟩, [(generate_key c3Lat c3Lon, ⟨c3Resp, 5, 0⟩)], 0, 0⟩

/-- Witness for C3: with a failing upstream and a populated stale slot,
the call returns the stale data stamped `cached=true, stale=true,
cachedAt=5`. -/
theorem claim_C3_witness :
    (WeatherService.get_forecast c3Env c3Mgr c3Lat c3Lon none none
      TemperatureUnit.celsius).1 =
      Except.ok (WeatherService.postProcess TemperatureUnit.celsius none
        (staleStamped ⟨c3Resp, 5, 0⟩)) := by
  have h := (claim_C3_stale_fallback c3Env c3Mgr c3Lat c3Lon none none
    TemperatureUnit.celsius ['x'] rfl (by decide)).1 ⟨c3Resp, 5, 0⟩
    (by decide)
  exact h.1

theorem updateData_pres {Q : List Char × CacheEntry × Int → Prop}
    (c : TTLCache) (k : List Char) (f : CacheEntry → CacheEntry)
    (hc : ∀ it ∈ c.items, Q it)
    (hf : ∀ it ∈ c.items, Q (it.1, f it.2.1, it.2.2)) :
    ∀ it ∈ (c.updateData k f).items, Q it := by
  intro it hit
  unfold TTLCache.updateData at hit
  rcases List.mem_map.mp hit with ⟨it0, hit0, rfl⟩
  by_cases hk : it0.1 = k
  · rw [if_pos hk]
    exact hf it0 hit0
  · rw [if_neg hk]
    exact hc it0 hit0

theorem insert_pres {Q : List Char × CacheEntry × Int → Prop}
    (c : TTLCache) (now : Int) (k : List Char) (e : CacheEntry)
    (hc : ∀ it ∈ c.items, Q it) (he : Q (k, e, now + c.ttl)) :
    ∀ it ∈ (c.insert now k e).items, Q it := by
  intro it hit
  unfold TTLCache.insert at hit
  dsimp only at hit
  have hit2 := List.mem_of_mem_drop hit
  rcases List.mem_append.mp hit2 with hl | hr
  · exact hc it (List.mem_of_mem_filter (List.mem_of_mem_filter hl))
  · rcases List.mem_singleton.mp hr with rfl
    exact he

theorem alistSet_pres {α β : Type} [DecidableEq α] {Q : α × β → Prop}
    (l : List (α × β)) (k : α) (v : β)
    (hl : ∀ p ∈ l, Q p) (hv : Q (k, v)) :
    ∀ p ∈ alistSet l k v, Q p := by
  intro p hp
  unfold alistSet at hp
  by_cases hs : (alistFind l k).isSome
  · rw [if_pos hs] at hp
    rcases List.mem_map.mp hp with ⟨q, hq, rfl⟩
    by_cases hk : q.1 = k
    · rw [if_pos hk]
      exact hv
    · rw [if_neg hk]
      exact hl q hq
  · rw [if_neg hs] at hp
    rcases List.mem_append.mp hp with h1 | h2
    · exact hl p h1
    · rcases List.mem_singleton.mp h2 with rfl
      exact hv

/-- `get_forecast` keeps the cache-content invariant: every response it
stores (fresh result, demoted live entry, or in-place mutated object)
has strictly sorted readings, provided the cache already satisfied the
invariant. -/
theorem get_forecast_preserves_sortedCache (env : FetchEnv)
    (mgr : CacheManager) (lat lon : Rat) (nm : Option (List Char))
    (days : Option Nat) (unit : TemperatureUnit)
    (hsorted : SortedCache mgr) :
    SortedCache (WeatherService.get_forecast env mgr lat lon nm days
      unit).2 := by
  unfold WeatherService.get_forecast CacheManager.get
    CacheManager.get_stale CacheManager.set
  dsimp only
  cases hlook : mgr.cache.lookup env.now
      (generate_key (quant4 (round4 lat)) (quant4 (round4 lon))) with
  | some e0 =>
    dsimp only
    unfold WeatherService.serveFromLive
    dsimp only
    have he0 : StrictByDate e0.data.forecasts :=
      @lookup_prop (fun e => StrictByDate e.data.forecasts) mgr.cache
        env.now _ hsorted.1 e0 hlook
    refine ⟨?_, hsorted.2⟩
    intro it hit
    refine updateData_pres _ _ _
      (updateData_pres _ _ _ hsorted.1 ?_) ?_ it hit
    · intro it0 _
      exact he0
    · intro it0 _
      exact postProcess_strict _ _ _ he0
  | none =>
    dsimp only
    rw [hlook]
    dsimp only
    cases hfetch : env.fetch with
    | error e =>
      dsimp only
      cases hstale : alistFind mgr.stale_cache
          (generate_key (quant4 (round4 lat)) (quant4 (round4 lon))) with
      | some s0 =>
        dsimp only
        have hs0 : StrictByDate s0.data.forecasts :=
          @alistFind_prop (List Char) CacheEntry _
            (fun e => StrictByDate e.data.forecasts) mgr.stale_cache _
            hsorted.2 s0 hstale
        refine ⟨hsorted.1, ?_⟩
        intro p hp
        refine alistSet_pres _ _ _ hsorted.2 ?_ p hp
        exact postProcess_strict _ _ _ hs0
      | none => exact hsorted
    | ok ts =>
      dsimp only
      rw [hlook]
      dsimp only
      have hfresh : StrictByDate (ForecastResponse.construct
          ⟨quant4 (round4 lat), quant4 (round4 lon), nm⟩
          (process_timeseries env.localize ts)
          (process_timeseries env.localize ts).length false false none
          env.now).forecasts := by
        rw [construct_forecasts]
        exact sortByDate_strict _
          (process_timeseries_dates_nodup env.localize ts)
      refine ⟨?_, hsorted.2⟩
      intro it hit
      refine updateData_pres _ _ _
        (insert_pres _ _ _ _ hsorted.1 hfresh) ?_ it hit
      intro it0 _
      exact postProcess_strict _ _ _ hfresh

/-- Every successful `get_forecast` result is strictly date-sorted,
under the cache-content invariant. -/
theorem sorted_result_of_sortedCache (env : FetchEnv) (mgr : CacheManager)
    (lat lon : Rat) (nm : Option (List Char)) (days : Option Nat)
    (unit : TemperatureUnit) (hsorted : SortedCache mgr) :
    ∀ r, (WeatherService.get_forecast env mgr lat lon nm days unit).1 =
        Except.ok r →
      StrictByDate r.forecasts := by
  intro r hr
  unfold WeatherService.get_forecast CacheManager.get
    CacheManager.get_stale at hr
  dsimp only at hr
  cases hlook : mgr.cache.lookup env.now
      (generate_key (quant4 (round4 lat)) (quant4 (round4 lon))) with
  | some e0 =>
    rw [hlook] at hr
    dsimp only at hr
    unfold WeatherService.serveFromLive at hr
    dsimp only at hr
    injection hr with h
    subst h
    have hs : StrictByDate e0.data.forecasts :=
      @lookup_prop (fun e => StrictByDate e.data.forecasts) mgr.cache
        env.now _ hsorted.1 e0 hlook
    exact postProcess_strict _ _ _ hs
  | none =>
    rw [hlook] at hr
    dsimp only at hr
    rw [hlook] at hr
    dsimp only at hr
    cases hfetch : env.fetch with
    | error e =>
      rw [hfetch] at hr
      dsimp only at hr
      cases hstale : alistFind mgr.stale_cache
          (generate_key (quant4 (round4 lat)) (quant4 (round4 lon))) with
      | some s0 =>
        rw [hstale] at hr
        dsimp only at hr
        injection hr with h
        subst h
        have hs : StrictByDate s0.data.forecasts :=
          @alistFind_prop (List Char) CacheEntry _
            (fun e => StrictByDate e.data.forecasts) mgr.stale_cache _
            hsorted.2 s0 hstale
        exact postProcess_strict _ _ _ hs
      | none =>
        rw [hstale] at hr
        dsimp only at hr
        exact Except.noConfusion hr
    | ok ts =>
      rw [hfetch] at hr
      dsimp only at hr
      injection hr with h
      subst h
      refine postProcess_strict _ _ _ ?_
      have hstrict := sortByDate_strict (process_timeseries env.localize ts)
        (process_timeseries_dates_nodup env.localize ts)
      rw [show (ForecastResponse.construct
        ⟨quant4 (round4 lat), quant4 (round4 lon), nm⟩
        (process_timeseries env.localize ts)
        (process_timeseries env.localize ts).length false false none
        env.now).forecasts = sortByDate (process_timeseries env.localize ts)
        from construct_forecasts _ _ _ _ _ _ _]
      exact hstrict

/-- C5.  Whenever every response currently held in the cache has
strictly date-sorted readings, every successful `get_forecast` response
has its forecasts sorted strictly ascending by calendar date with no
duplicate dates — on the fresh-fetch path because the per-date champion
table has duplicate-free keys and is then sorted, and on the cache and
stale paths because conversion and day-limiting preserve the order —
and the call leaves the cache satisfying the same invariant, so the
hypothesis holds for every cache state the running service can reach
(it holds for the empty initial cache). -/
theorem claim_C5_forecasts_sorted (env : FetchEnv) (mgr : CacheManager)
    (lat lon : Rat) (nm : Option (List Char)) (days : Option Nat)
    (unit : TemperatureUnit) (hsorted : SortedCache mgr) :
    (∀ r, (WeatherService.get_forecast env mgr lat lon nm days unit).1 =
        Except.ok r →
      StrictByDate r.forecasts) ∧
    SortedCache (WeatherService.get_forecast env mgr lat lon nm days
      unit).2 :=
  ⟨sorted_result_of_sortedCache env mgr lat lon nm days unit hsorted,
    get_forecast_preserves_sortedCache env mgr lat lon nm days unit
      hsorted⟩

/-- The environment of the C5 witness: the upstream returns an empty
timeseries. -/
def c5Env : FetchEnv := ⟨Except.ok [], fun _ => ⟨0, 0⟩, 0⟩

/-- Witness for C5 on the fresh-fetch path with an empty upstream
timeseries: the initial cache satisfies the invariant and the returned
response is strictly sorted. -/
theorem claim_C5_witness :
    SortedCache CacheManager.init ∧
    StrictByDate ((⟨⟨mkRat 448125 10000, mkRat 204612 10000, none⟩, [], 0,
      false, false, none, 0⟩ : ForecastResponse)).forecasts := by
  have hsc : SortedCache CacheManager.init := by
    constructor
    · intro it h
      exact absurd h (List.not_mem_nil it)
    · intro p h
      exact absurd h (List.not_mem_nil p)
  refine ⟨hsc, ?_⟩
  exact (claim_C5_forecasts_sorted c5Env CacheManager.init
    (mkRat 448125 10000) (mkRat 204612 10000) none none
    TemperatureUnit.celsius hsc).1
    ⟨⟨mkRat 448125 10000, mkRat 204612 10000, none⟩, [], 0, false, false,
      none, 0⟩ (by rfl)

end WeatherApi
